import Mathlib

/-!
Verification of the hook-execution core of ayi-rs against its specification.

The Rust sources under scrutiny are `src/hooks/uncomment.rs`,
`src/hooks/mkinitcpio.rs` and `src/hooks/mod.rs`.  Strings are embedded as
`List Char`; the standard-library string primitives used by the code
(`str::contains`, `str::replacen(_, _, 1)`, `str::replace`, `str::lines`,
`str::split_whitespace`, `str::split_once`) are given explicit executable
models below, and each Rust function of the repository is translated into a
Lean function over those models.
-/

deriving instance DecidableEq for Except

namespace Ayi

/-- Convert a Lean string literal to the `List Char` representation used
throughout this development. -/
def strL (s : String) : List Char := s.toList

/-- The newline character, the line separator used by `str::lines`. -/
def NL : Char := '\n'

/-- The carriage-return character, stripped from line ends by `str::lines`. -/
def CR : Char := '\r'

/-- Model of `" ".repeat(n)` from the Rust code: `n` space characters. -/
def spaces (n : Nat) : List Char := List.replicate n ' '

/-- Boolean prefix test on character lists: `isPrefixL p l` holds when `p`
is a prefix of `l`. -/
def isPrefixL : List Char → List Char → Bool
  | [], _ => true
  | _ :: _, [] => false
  | a :: p, b :: l => decide (a = b) && isPrefixL p l

/-- Model of Rust `str::contains` for plain-string patterns: `p` occurs as a
contiguous substring of `l` (the empty pattern always occurs). -/
def containsSub : List Char → List Char → Bool
  | [], p => isPrefixL p []
  | c :: t, p => isPrefixL p (c :: t) || containsSub t p

/-- Model of Rust `str::replacen(pat, rep, 1)`: replace the leftmost
occurrence of `pat` in `l` by `rep`; if `pat` does not occur, return `l`
unchanged.  An empty `pat` matches at position 0, as in Rust. -/
def replaceFirst (l pat rep : List Char) : List Char :=
  match l with
  | [] => if isPrefixL pat [] then rep ++ ([] : List Char) else []
  | c :: t =>
    if isPrefixL pat (c :: t) then rep ++ (c :: t).drop pat.length
    else c :: replaceFirst t pat rep

/-- Left-to-right scanner behind `replaceAll`, structurally recursive on an
explicit fuel so that it reduces by computation; any fuel of at least the
length of the scanned list gives the same answer
(`replaceAllG_fuel_congr`). -/
def replaceAllG (pat rep : List Char) : Nat → List Char → List Char
  | 0, l => l
  | fuel + 1, l =>
    match l with
    | [] => []
    | c :: t =>
      if pat ≠ [] ∧ isPrefixL pat (c :: t) = true then
        rep ++ replaceAllG pat rep fuel ((c :: t).drop pat.length)
      else
        c :: replaceAllG pat rep fuel t

/-- Model of Rust `str::replace`: replace every occurrence of `pat` in `l`
by `rep`, scanning left to right over non-overlapping occurrences.  The
program only ever calls this with `pat = marker ++ spaces w ++ rep`, so an
empty `pat` forces an empty `rep`; on that fragment this scanner agrees with
Rust (whose empty-pattern `replace` would interleave `rep`, a no-op when
`rep` is empty). -/
def replaceAll (l pat rep : List Char) : List Char :=
  replaceAllG pat rep l.length l

/-- Split a character list at every newline, keeping every segment
(including a trailing empty one).  `joinNl` is its exact inverse. -/
def splitNl : List Char → List (List Char)
  | [] => [[]]
  | c :: t =>
    if c = NL then [] :: splitNl t
    else
      match splitNl t with
      | s :: rest => (c :: s) :: rest
      | [] => [[c]]

/-- Join segments with a newline between consecutive segments; the inverse
of `splitNl`. -/
def joinNl : List (List Char) → List Char
  | [] => []
  | [s] => s
  | s :: t :: rest => s ++ NL :: joinNl (t :: rest)

/-- Strip a single trailing carriage return, as Rust `str::lines` does on
each produced line. -/
def stripCR (s : List Char) : List Char :=
  if s.getLast? = some CR then s.dropLast else s

/-- Model of Rust `str::lines`: split on newline with terminator semantics
(no empty line after a final newline), stripping one carriage return only
from lines that were `\n`-terminated — a bare trailing `\r` on a final
unterminated line is kept, as in the std documentation's example where
`"baz\r"` yields the line `"baz\r"`.  All segments but the last are
`\n`-terminated, so they are `stripCR`-ed and the last is kept verbatim
(when the document ends in `\n` the last segment is empty and no line is
produced for it). -/
def linesOf (l : List Char) : List (List Char) :=
  match (splitNl l).getLast? with
  | some [] => (splitNl l).dropLast.map stripCR
  | some (c :: t) => (splitNl l).dropLast.map stripCR ++ [c :: t]
  | none => []

/-- Model of Rust `str::split_once('=')`: split at the first `=`, returning
the parts before and after it, or `none` when no `=` occurs. -/
def splitOnceEq : List Char → Option (List Char × List Char)
  | [] => none
  | c :: t =>
    if c = '=' then some ([], t)
    else
      match splitOnceEq t with
      | some (a, b) => some (c :: a, b)
      | none => none

/-- ASCII whitespace test approximating Rust `char::is_whitespace` on the
characters the program deals with. -/
def isWs (c : Char) : Bool := c = ' ' || c = '\t' || c = '\n' || c = '\r'

/-- Model of Rust `str::split_whitespace` (ASCII fragment): maximal runs of
non-whitespace characters, empty pieces dropped. -/
def splitWs : List Char → List (List Char)
  | [] => []
  | c :: t =>
    if isWs c then splitWs t
    else
      match splitWs t, t with
      | _, [] => [[c]]
      | s :: rest, d :: _ =>
        if isWs d then [c] :: s :: rest else (c :: s) :: rest
      | [], _ :: _ => [[c]]

/-!  The error and action types of the crate (`src/errors.rs` is summarized
by its constructors as used in the sources; `FileError` carries only the
human context string, the wrapped OS error being outside the embedding). -/

/-- Embedding of the crate's `AliError` enum, each variant carrying its
message string. -/
inductive AliError
  | BadManifest (msg : List Char)
  | BadArgs (msg : List Char)
  | BadHookCmd (msg : List Char)
  | HookError (msg : List Char)
  | FileError (msg : List Char)
  | NotImplemented (msg : List Char)
  | AliRsBug (msg : List Char)
deriving DecidableEq

/-- Embedding of `ActionHook` (src/hooks/mod.rs): a tagged union of
serialized audit strings, one variant per hook family. -/
inductive ActionHook
  | QuickNet (s : List Char)
  | ReplaceToken (s : List Char)
  | Uncomment (s : List Char)
  | Mkinitcpio (s : List Char)
deriving DecidableEq

/-- Embedding of `Caller` (src/hooks/mod.rs): the context that invoked a
hook. -/
inductive Caller
  | ManifestChroot
  | ManifestPostInstall
  | Cli
deriving DecidableEq

/-- Embedding of `ModeHook` (src/hooks/mod.rs): print-only or normal. -/
inductive ModeHook
  | Normal
  | Print
deriving DecidableEq

/-!  Hook keys.  `src/hooks/constants.rs` is not part of the given sources.
Modelled from the spec: hook keys are string identifiers and a trailing
`-print` suffix on the key selects print mode; the uncomment family
examples in the spec use `@uncomment`. -/

/-- Modelled from the spec: the `UNCOMMENT` key constant (missing
`constants.rs`), per the spec's example `@uncomment PubkeyAuthentication
/etc/ssh/sshd_config`. -/
def UNCOMMENT : List Char := strL ("@uncomment")

/-- Modelled from the spec: the `UNCOMMENT_PRINT` key constant (missing
`constants.rs`), the `-print` suffixed form of `@uncomment`. -/
def UNCOMMENT_PRINT : List Char := strL ("@uncomment-print")

/-- Modelled from the spec: the `UNCOMMENT_ALL` key constant (missing
`constants.rs`), the All-mode sibling of `@uncomment`. -/
def UNCOMMENT_ALL : List Char := strL ("@uncomment-all")

/-- Modelled from the spec: the `UNCOMMENT_ALL_PRINT` key constant (missing
`constants.rs`), the `-print` suffixed form of `@uncomment-all`. -/
def UNCOMMENT_ALL_PRINT : List Char := strL ("@uncomment-all-print")

/-- Modelled from the spec: the `MKINITCPIO_KEY` key constant (missing
`constants.rs`), per the spec's example `@mkinitcpio-print boot_hook=lvm`. -/
def MKINITCPIO_KEY : List Char := strL ("@mkinitcpio")

/-- Modelled from the spec: the `MKINITCPIO_PRINT` key constant (missing
`constants.rs`). -/
def MKINITCPIO_PRINT : List Char := strL ("@mkinitcpio-print")

/-!  The Uncomment hook (src/hooks/uncomment.rs). -/

/-- Embedding of `Mode` (src/hooks/uncomment.rs): All or Once matching. -/
inductive Mode
  | All
  | Once
deriving DecidableEq

/-- Embedding of the `Uncomment` configuration struct
(src/hooks/uncomment.rs). -/
structure Uncomment where
  marker : List Char
  pattern : List Char
  file : List Char
  mode : Mode
  print_only : Bool
deriving DecidableEq

/-- The search pattern built by both uncomment transforms:
`format!("{marker}{whitespace}{key}")` with `whitespace = " ".repeat(w)`. -/
def patOf (marker key : List Char) (w : Nat) : List Char :=
  marker ++ spaces w ++ key

/-- Loop body of `uncomment_text_all` (src/hooks/uncomment.rs lines
143-163), made total with an explicit `fuel` bound on the number of loop
iterations; `c` is the current whitespace width.  `none` means the loop has
not returned within `fuel` iterations — the Rust loop has no bound at all,
so divergence of the source is `∀ fuel, ... = none`. -/
def uncomment_text_all_go (orig marker key : List Char) : Nat → Nat → Option (List Char)
  | _, 0 => none
  | c, fuel + 1 =>
    let pattern := patOf marker key c
    let uncommented := replaceAll orig pattern key
    if uncommented ≠ orig then some uncommented
    else uncomment_text_all_go orig marker key (c + 1) fuel

/-- Embedding of `uncomment_text_all` (src/hooks/uncomment.rs lines
143-163): widen the whitespace from 0 until the whole-document replacement
changes something.  Fuelled; the Rust function corresponds to unbounded
fuel. -/
def uncomment_text_all (fuel : Nat) (orig marker key : List Char) : Option (List Char) :=
  uncomment_text_all_go orig marker key 0 fuel

/-- Message of the `HookError` raised by `uncomment_text_once` when no
line matches: `format!("{UNCOMMENT}: no such comment pattern '{marker}
{key}'")`. -/
def noSuchPatternMsg (marker key : List Char) : List Char :=
  UNCOMMENT ++ strL (": no such comment pattern ") ++
    '\x27' :: (marker ++ ' ' :: key) ++ ['\x27']

/-- Inner loop of `uncomment_text_once`: the first whitespace width
`i ∈ 0..5` for which the line contains `marker + i spaces + key`. -/
def lineWidth (marker key line : List Char) : Option Nat :=
  (List.range 5).find? (fun i => containsSub line (patOf marker key i))

/-- Outer loop of `uncomment_text_once`: scan the lines in order and return
the first line matching some width together with that width. -/
def findOnce (marker key : List Char) : List (List Char) → Option (List Char × Nat)
  | [] => none
  | line :: rest =>
    match lineWidth marker key line with
    | some i => some (line, i)
    | none => findOnce marker key rest

/-- Embedding of `uncomment_text_once` (src/hooks/uncomment.rs lines
165-186): on the first line/width match, `line.replacen(pattern, key, 1)`
rewrites the line and `original.replacen(line, line_uncommented, 1)` splices
it back into the document; otherwise the `HookError`. -/
def uncomment_text_once (orig marker key : List Char) : Except AliError (List Char) :=
  match findOnce marker key (linesOf orig) with
  | some (line, i) =>
    .ok (replaceFirst orig line (replaceFirst line (patOf marker key i) key))
  | none => .error (.HookError (noSuchPatternMsg marker key))

/-- Mode selection of `parse_uncomment`'s `match cmd.as_str()`: `Once` for
the plain keys, `All` for the `-all` keys, none otherwise (the `AliRsBug`
branch). -/
def uncommentModeOf (cmd : List Char) : Option Mode :=
  if cmd = UNCOMMENT ∨ cmd = UNCOMMENT_PRINT then some .Once
  else if cmd = UNCOMMENT_ALL ∨ cmd = UNCOMMENT_ALL_PRINT then some .All
  else none

/-- Embedding of `parse_uncomment` (src/hooks/uncomment.rs lines 195-256)
over the token list produced by `shlex::split` (the quote-aware tokenizer is
the external `shlex` crate, abstracted here: theorems quantify over the
token list).  The `shlex` failure branch (`parts.is_none()`) is prior to
this function. -/
def parse_uncomment (parts : List (List Char)) : Except AliError Uncomment :=
  if parts.length < 3 then
    .error (.BadHookCmd (UNCOMMENT ++ strL (": expect at least 2 arguments")))
  else
    match parts with
    | [] => .error (.BadHookCmd (UNCOMMENT ++ strL (": expect at least 2 arguments")))
    | cmd :: rest =>
      match uncommentModeOf cmd with
      | none => .error (.AliRsBug (strL ("got bad hook cmd: ") ++ cmd))
      | some mode =>
        let print_only : Bool := cmd = UNCOMMENT_PRINT ∨ cmd = UNCOMMENT_ALL_PRINT
        match rest with
        | [pat, file] =>
          .ok ⟨strL ("#"), pat, file, mode, print_only⟩
        | [pat, kw, marker, file] =>
          if kw = strL ("marker") then
            .ok ⟨marker, pat, file, mode, print_only⟩
          else
            .error (.BadHookCmd (UNCOMMENT ++ strL (": unexpected argument ") ++ kw ++
              strL (", expecting 2nd argument to be `marker`")))
        | _ =>
          .error (.BadHookCmd (UNCOMMENT ++ strL (": bad cmd parts: ") ++
            strL (toString parts.length)))

/-- Target-path resolution of `uncomment` (src/hooks/uncomment.rs lines
103-111): `format!("{root_location}/{file}")` for the `ManifestPostInstall`
and `Cli` callers, the configured path verbatim otherwise. -/
def uncommentTarget (caller : Caller) (root_location file : List Char) : List Char :=
  match caller with
  | .ManifestPostInstall => root_location ++ '/' :: file
  | .Cli => root_location ++ '/' :: file
  | _ => file

/-- Serialized audit record of the Uncomment hook
(`impl ToString for Uncomment`, src/hooks/uncomment.rs lines 258-267). -/
def uncommentToString (uc : Uncomment) : List Char :=
  strL ("\x7b\"comment_marker\":\"") ++ uc.marker ++
    strL ("\",\"pattern\":\"") ++ uc.pattern ++
    strL ("\",\"file\":\"") ++ uc.file ++ strL ("\"\x7d")

/-- Filesystem side effects of a hook run, for tracking which path is read,
what is printed and what is written. -/
inductive FileEffect
  | printedOut (s : List Char)
  | wroteFile (path s : List Char)
deriving DecidableEq

/-- Embedding of `uncomment` (src/hooks/uncomment.rs lines 98-141), the
execution of a parsed Uncomment hook: resolve the target path, read it from
the abstract filesystem `fs` (a map from paths to contents, `none` being a
read failure), run the mode's transform, then print or write.  The result
is `none` when All mode exceeds `fuel` (the Rust loop is unbounded). -/
def uncommentRun (fuel : Nat) (uc : Uncomment) (caller : Caller)
    (root_location : List Char) (fs : List Char → Option (List Char)) :
    Option (Except AliError (ActionHook × FileEffect)) :=
  let target := uncommentTarget caller root_location uc.file
  match fs target with
  | none =>
    some (.error (.FileError
      (UNCOMMENT ++ strL (": read original file to uncomment: ") ++ target)))
  | some original =>
    let uncommented? : Option (Except AliError (List Char)) :=
      match uc.mode with
      | .All => (uncomment_text_all fuel original uc.marker uc.pattern).map .ok
      | .Once => some (uncomment_text_once original uc.marker uc.pattern)
    match uncommented? with
    | none => none
    | some (.error e) => some (.error e)
    | some (.ok uncommented) =>
      some (.ok (.Uncomment (uncommentToString uc),
        if uc.print_only then .printedOut uncommented
        else .wroteFile target uncommented))

/-!  Hook metadata and the caller/mountpoint guard (src/hooks/mod.rs). -/

/-- Static metadata of a hook variant, the part of the `HookWrapper` trait
consulted by `parse_validate` and `handle_no_mountpoint`
(src/hooks/mod.rs). -/
structure HookMeta where
  base_key : List Char
  mode : ModeHook
  should_chroot : Bool
  preferred_callers : List Caller
  abort_if_no_mount : Bool
deriving DecidableEq

/-- Full key of a hook (`HookWrapper::hook_key`): the base key, suffixed by
`-print` in print mode. -/
def hookKey (m : HookMeta) : List Char :=
  match m.mode with
  | .Normal => m.base_key
  | .Print => m.base_key ++ strL ("-print")

/-- Formatting of `HookWrapper::eprintln_warn`:
`### {base_key} WARN: {msg} ###`. -/
def warnFmt (base_key msg : List Char) : List Char :=
  strL ("### ") ++ base_key ++ strL (" WARN: ") ++ msg ++ strL (" ###")

/-- The trailing preferred-caller check of `handle_no_mountpoint`
(src/hooks/mod.rs lines 276-281).  Note the source passes the literal
strings `"non-preferred caller {caller}"` and
`"preferred callers: {preferred_callers:?}"` to `eprintln_warn`, so no
interpolation happens; the braces are modelled verbatim. -/
def preferredCheck (m : HookMeta) (caller : Caller) (ws : List (List Char)) :
    Except AliError Unit × List (List Char) :=
  if caller ∈ m.preferred_callers then (.ok (), ws)
  else
    (.ok (), ws ++
      [warnFmt m.base_key (strL ("non-preferred caller \x7bcaller\x7d")),
       warnFmt m.base_key (strL ("preferred callers: \x7bpreferred_callers:?\x7d"))])

/-- Embedding of `handle_no_mountpoint` (src/hooks/mod.rs lines 246-283):
for `/` as mountpoint, warn; the CLI caller gets a hint and falls through to
the `abort_if_no_mount` check, while manifest callers return the `AliRsBug`
immediately.  The second component collects the warnings printed to
stderr. -/
def handle_no_mountpoint (m : HookMeta) (caller : Caller) (mountpoint : List Char) :
    Except AliError Unit × List (List Char) :=
  if mountpoint = strL ("/") then
    let w1 := [warnFmt m.base_key (strL ("got / as mountpoint"))]
    match caller with
    | .Cli =>
      let w2 := w1 ++
        [warnFmt m.base_key (strL ("hint: use --mountpoint flag to specify non-/ mountpoint"))]
      if m.abort_if_no_mount then
        (.error (.BadHookCmd
          (strL ("hook ") ++ hookKey m ++ strL (" is to be run with a mountpoint"))), w2)
      else
        preferredCheck m caller w2
    | _ =>
      (.error (.AliRsBug (strL ("Got / as mountpoint for hook ") ++ hookKey m)), w1)
  else
    preferredCheck m caller []

/-- Embedding of `parse_validate` (src/hooks/mod.rs lines 170-195) for a
hook with metadata `m` and parser `tryParse`: reject empty commands, parse,
then run the guard only when `should_chroot()` holds.  The second component
collects the guard's stderr warnings. -/
def parse_validate (m : HookMeta) (tryParse : List (List Char) → Except AliError Unit)
    (parts : List (List Char)) (caller : Caller) (root_location : List Char) :
    Except AliError Unit × List (List Char) :=
  if parts = [] then (.error (.BadManifest (strL ("empty hook"))), [])
  else
    match tryParse parts with
    | .error e => (.error e, [])
    | .ok _ =>
      if m.should_chroot then
        match handle_no_mountpoint m caller root_location with
        | (.error e, ws) => (.error e, ws)
        | (.ok _, ws) => (.ok (), ws)
      else (.ok (), [])

/-- Metadata of the Uncomment hook family (`MetaUncomment` and
`uncomment::new`, src/hooks/uncomment.rs lines 36-70): never chroot, never
abort on a missing mountpoint, all callers preferred. -/
def uncommentMeta (key : List Char) : HookMeta where
  base_key := UNCOMMENT
  mode := if key = UNCOMMENT_PRINT ∨ key = UNCOMMENT_ALL_PRINT then .Print else .Normal
  should_chroot := false
  preferred_callers := [.ManifestChroot, .ManifestPostInstall, .Cli]
  abort_if_no_mount := false

/-- The `try_parse` of `MetaUncomment`, discarding the parsed configuration
as `parse_validate` only needs success or the error. -/
def uncommentTryParse (parts : List (List Char)) : Except AliError Unit :=
  match parse_uncomment parts with
  | .ok _ => .ok ()
  | .error e => .error e

/-!  The Mkinitcpio hook (src/hooks/mkinitcpio.rs). -/

/-- Embedding of `BootHooksRoot` (src/hooks/mkinitcpio.rs lines 59-65). -/
inductive BootHooksRoot
  | Lvm
  | Luks
  | LvmOnLuks
  | LuksOnLvm
deriving DecidableEq

/-- Embedding of the `Mkinitcpio` configuration struct
(src/hooks/mkinitcpio.rs lines 7-13). -/
structure Mkinitcpio where
  boot_hook : Option BootHooksRoot
  binaries : Option (List (List Char))
  hooks : Option (List (List Char))
  print_only : Bool
deriving DecidableEq

/-- Embedding of `Default for Mkinitcpio` (src/hooks/mkinitcpio.rs lines
187-196): everything absent, print-only true. -/
def mkinitcpioDefault : Mkinitcpio :=
  { boot_hook := none, binaries := none, hooks := none, print_only := true }

/-- Embedding of `ALIASES_ROOT_LVM` (src/hooks/mkinitcpio.rs lines
198-206). -/
def ALIASES_ROOT_LVM : List (List Char) :=
  [strL ("root-on-lvm"), strL ("root_on_lvm"), strL ("root-lvm"),
   strL ("root_lvm"), strL ("lvm-root"), strL ("lvm_root"), strL ("lvm")]

/-- Embedding of `ALIASES_ROOT_LUKS` (src/hooks/mkinitcpio.rs lines
208-216). -/
def ALIASES_ROOT_LUKS : List (List Char) :=
  [strL ("root-on-luks"), strL ("root_on_luks"), strL ("root-luks"),
   strL ("root_luks"), strL ("luks-root"), strL ("luks_root"), strL ("luks")]

/-- Embedding of `ALIASES_ROOT_LVM_ON_LUKS` (src/hooks/mkinitcpio.rs lines
218-227). -/
def ALIASES_ROOT_LVM_ON_LUKS : List (List Char) :=
  [strL ("root-on-lvm-on-luks"), strL ("root_on_lvm_on_luks"),
   strL ("lvm-on-luks-root"), strL ("lvm_on_luks_root"),
   strL ("root-lvm-on-luks"), strL ("root_lvm_on_luks"),
   strL ("lvm-on-luks"), strL ("lvm_on_luks")]

/-- Embedding of `ALIASES_ROOT_LUKS_ON_LVM` (src/hooks/mkinitcpio.rs lines
229-238). -/
def ALIASES_ROOT_LUKS_ON_LVM : List (List Char) :=
  [strL ("root-on-luks-on-lvm"), strL ("root_on_luks_on_lvm"),
   strL ("luks-on-lvm-root"), strL ("luks_on_lvm_root"),
   strL ("root-luks-on-lvm"), strL ("root_luks_on_lvm"),
   strL ("luks-on-lvm"), strL ("luks_on_lvm")]

/-- Embedding of `decide_boot_hooks` (src/hooks/mkinitcpio.rs lines
85-105): membership in the four alias tables, tried in order, otherwise the
"no such boot_hook preset" error. -/
def decide_boot_hooks (v : List Char) : Except AliError BootHooksRoot :=
  if v ∈ ALIASES_ROOT_LVM then .ok .Lvm
  else if v ∈ ALIASES_ROOT_LUKS then .ok .Luks
  else if v ∈ ALIASES_ROOT_LVM_ON_LUKS then .ok .LvmOnLuks
  else if v ∈ ALIASES_ROOT_LUKS_ON_LVM then .ok .LuksOnLvm
  else .error (.BadHookCmd (MKINITCPIO_KEY ++ strL (": no such boot_hook preset: ") ++ v))

/-- Modelled from the spec: the canonical hooks string
`MKINITCPIO_PRESET_LVM_ROOT` lives in the missing `constants.rs`; the spec
only says each preset expands to a fixed hook-name sequence, so a
representative fixed value is used. -/
def MKINITCPIO_PRESET_LVM_ROOT : List Char :=
  strL ("base udev autodetect modconf block lvm2 filesystems keyboard fsck")

/-- Modelled from the spec: the canonical hooks string
`MKINITCPIO_PRESET_LUKS_ROOT` (missing `constants.rs`). -/
def MKINITCPIO_PRESET_LUKS_ROOT : List Char :=
  strL ("base udev autodetect modconf block encrypt filesystems keyboard fsck")

/-- Modelled from the spec: the canonical hooks string
`MKINITCPIO_PRESET_LVM_ON_LUKS_ROOT` (missing `constants.rs`). -/
def MKINITCPIO_PRESET_LVM_ON_LUKS_ROOT : List Char :=
  strL ("base udev autodetect modconf block encrypt lvm2 filesystems keyboard fsck")

/-- Modelled from the spec: the canonical hooks string
`MKINITCPIO_PRESET_LUKS_ON_LVM_ROOT` (missing `constants.rs`). -/
def MKINITCPIO_PRESET_LUKS_ON_LVM_ROOT : List Char :=
  strL ("base udev autodetect modconf block lvm2 encrypt filesystems keyboard fsck")

/-- Embedding of `preset` (src/hooks/mkinitcpio.rs lines 67-83). -/
def preset (t : BootHooksRoot) : List Char :=
  match t with
  | .Lvm => MKINITCPIO_PRESET_LVM_ROOT
  | .Luks => MKINITCPIO_PRESET_LUKS_ROOT
  | .LvmOnLuks => MKINITCPIO_PRESET_LVM_ON_LUKS_ROOT
  | .LuksOnLvm => MKINITCPIO_PRESET_LUKS_ON_LVM_ROOT

/-- Embedding of `split_whitespace_to_strings` (src/hooks/mkinitcpio.rs
lines 175-179). -/
def split_whitespace_to_strings (s : List Char) : List (List Char) := splitWs s

/-- Embedding of `fmt_shell_array` (src/hooks/mkinitcpio.rs lines 181-185):
`{arr_name}=({elems joined by spaces})`. -/
def fmt_shell_array (arr_name : List Char) (arr_elems : List (List Char)) : List Char :=
  arr_name ++ strL ("=(") ++ (arr_elems.intersperse (strL (" "))).flatten ++ strL (")")

/-- The key/value consumption loop of `parse` (src/hooks/mkinitcpio.rs
lines 137-164): duplicate keys (of any spelling, including ignored ones)
are rejected before dispatch; `boot_hook`, `binaries` and `hooks` populate
the configuration, other keys are skipped. -/
def mkApplyKVs : List (List Char × List Char) → Mkinitcpio → List (List Char) →
    Except AliError Mkinitcpio
  | [], m, _ => .ok m
  | (k, v) :: rest, m, dups =>
    if k ∈ dups then
      .error (.BadHookCmd (MKINITCPIO_KEY ++ strL (": duplicate key ") ++ k))
    else
      let dups2 := k :: dups
      if k = strL ("boot_hook") then
        match decide_boot_hooks v with
        | .error e => .error e
        | .ok bh => mkApplyKVs rest { m with boot_hook := some bh } dups2
      else if k = strL ("binaries") then
        mkApplyKVs rest { m with binaries := some (split_whitespace_to_strings v) } dups2
      else if k = strL ("hooks") then
        mkApplyKVs rest { m with hooks := some (split_whitespace_to_strings v) } dups2
      else mkApplyKVs rest m dups2

/-- Embedding of `parse` (src/hooks/mkinitcpio.rs lines 107-173) over the
token list produced by `shlex::split` (the tokenizer is the external
`shlex` crate, abstracted as for `parse_uncomment`): length check, key
match deciding `print_only`, the key/value loop, and the
`boot_hook`/`hooks` mutual-exclusion check. -/
def mkParse (parts : List (List Char)) : Except AliError Mkinitcpio :=
  if parts.length < 2 then
    .error (.BadHookCmd (MKINITCPIO_KEY ++ strL (": need at least 1 argument")))
  else
    match parts with
    | [] => .error (.BadHookCmd (MKINITCPIO_KEY ++ strL (": need at least 1 argument")))
    | cmd :: args =>
      let keys_vals := args.filterMap splitOnceEq
      let po? : Except AliError Bool :=
        if cmd = MKINITCPIO_PRINT then .ok true
        else if cmd = MKINITCPIO_KEY then .ok false
        else .error (.BadHookCmd (MKINITCPIO_KEY ++ strL (": unknown hook command ") ++ cmd))
      match po? with
      | .error e => .error e
      | .ok po =>
        match mkApplyKVs keys_vals { mkinitcpioDefault with print_only := po } [] with
        | .error e => .error e
        | .ok m =>
          if m.boot_hook.isSome ∧ m.hooks.isSome then
            .error (.BadHookCmd (cmd ++
              strL (": boot_hook and hooks are mutually exclusive, but found both")))
          else .ok m

/-- Modelled from the spec: `warn_if_no_mountpoint` is called by
`mkinitcpio` (src/hooks/mkinitcpio.rs line 52) but its definition is not
among the given sources.  Per section 4.3 of the spec, with `/` as the
mountpoint it warns naming the hook, adds a hint for the interactive
caller, and treats manifest-driven callers as an internal invariant
violation. -/
def warn_if_no_mountpoint (key : List Char) (caller : Caller) (root_location : List Char) :
    Except AliError Unit × List (List Char) :=
  if root_location = strL ("/") then
    let w1 := [warnFmt key (strL ("got / as mountpoint"))]
    match caller with
    | .Cli =>
      (.ok (), w1 ++
        [warnFmt key (strL ("hint: use --mountpoint flag to specify non-/ mountpoint"))])
    | _ => (.error (.AliRsBug (strL ("Got / as mountpoint for hook ") ++ key)), w1)
  else (.ok (), [])

/-- Serialized audit record of the Mkinitcpio hook.  The source uses
`serde_json::to_string`; the exact rendering is irrelevant to the claims,
so a fixed JSON-like rendering of the same fields is used. -/
def mkSerialize (m : Mkinitcpio) : List Char :=
  strL ("\x7b\"boot_hook\":") ++
    (match m.boot_hook with
     | none => strL ("null")
     | some .Lvm => strL ("\"Lvm\"")
     | some .Luks => strL ("\"Luks\"")
     | some .LvmOnLuks => strL ("\"LvmOnLuks\"")
     | some .LuksOnLvm => strL ("\"LuksOnLvm\"")) ++
  strL (",\"print_only\":") ++
    (if m.print_only then strL ("true") else strL ("false")) ++ strL ("\x7d")

/-- Embedding of `mkinitcpio` (src/hooks/mkinitcpio.rs lines 15-57): parse,
expand a boot-hook preset into the hooks list, format the shell arrays; in
print mode emit them and return the audit record, in normal mode run the
mountpoint guard and fail with the `NotImplemented` error.  The second
component lists the stdout/stderr lines. -/
def mkinitcpio (parts : List (List Char)) (caller : Caller) (root_location : List Char) :
    Except AliError ActionHook × List (List Char) :=
  match mkParse parts with
  | .error e => (.error e, [])
  | .ok m0 =>
    let m :=
      match m0.boot_hook with
      | some bh => { m0 with hooks := some (split_whitespace_to_strings (preset bh)) }
      | none => m0
    let binaries_mkinitcpio := m.binaries.map (fmt_shell_array (strL ("BINARIES")))
    let hooks_mkinitcpio := m.hooks.map (fmt_shell_array (strL ("HOOKS")))
    if m.print_only then
      (.ok (.Mkinitcpio (mkSerialize m)),
        binaries_mkinitcpio.toList ++ hooks_mkinitcpio.toList)
    else
      match warn_if_no_mountpoint MKINITCPIO_KEY caller root_location with
      | (.error e, ws) => (.error e, ws)
      | (.ok _, ws) =>
        (.error (.NotImplemented (MKINITCPIO_KEY ++ strL (": write files"))), ws)

/-!  Basic lemmas about the string models. -/

theorem replaceAllG_nil (pat rep : List Char) (fuel : Nat) :
    replaceAllG pat rep fuel [] = [] := by
  cases fuel <;> rfl

theorem replaceAllG_fuel_congr (pat rep : List Char) :
    ∀ (n : Nat) (l : List Char) (m : Nat), l.length ≤ n → l.length ≤ m →
      replaceAllG pat rep n l = replaceAllG pat rep m l := by
  intro n
  induction n with
  | zero =>
    intro l m hn _
    have hl : l = [] := List.eq_nil_of_length_eq_zero (Nat.le_zero.mp hn)
    subst hl
    rw [replaceAllG_nil, replaceAllG_nil]
  | succ n ih =>
    intro l m hn hm
    cases l with
    | nil => rw [replaceAllG_nil, replaceAllG_nil]
    | cons c t =>
      cases m with
      | zero => simp at hm
      | succ m =>
        show replaceAllG pat rep (n + 1) (c :: t) = replaceAllG pat rep (m + 1) (c :: t)
        simp only [replaceAllG]
        by_cases h : pat ≠ [] ∧ isPrefixL pat (c :: t) = true
        · simp only [if_pos h]
          have hp : 0 < pat.length := List.length_pos.mpr h.1
          have hd : ((c :: t).drop pat.length).length ≤ n := by
            simp only [List.length_drop, List.length_cons]
            simp only [List.length_cons] at hn
            omega
          have hd2 : ((c :: t).drop pat.length).length ≤ m := by
            simp only [List.length_drop, List.length_cons]
            simp only [List.length_cons] at hm
            omega
          rw [ih _ m hd hd2]
        · simp only [if_neg h]
          have ht : t.length ≤ n := by
            simp only [List.length_cons] at hn; omega
          have ht2 : t.length ≤ m := by
            simp only [List.length_cons] at hm; omega
          rw [ih _ m ht ht2]

theorem replaceAll_nil (pat rep : List Char) : replaceAll [] pat rep = [] := rfl

theorem replaceAll_cons (c : Char) (t pat rep : List Char) :
    replaceAll (c :: t) pat rep =
      if pat ≠ [] ∧ isPrefixL pat (c :: t) = true then
        rep ++ replaceAll ((c :: t).drop pat.length) pat rep
      else
        c :: replaceAll t pat rep := by
  show replaceAllG pat rep (t.length + 1) (c :: t) = _
  simp only [replaceAllG]
  by_cases h : pat ≠ [] ∧ isPrefixL pat (c :: t) = true
  · simp only [if_pos h]
    have hp : 0 < pat.length := List.length_pos.mpr h.1
    have hd : ((c :: t).drop pat.length).length ≤ t.length := by
      simp only [List.length_drop, List.length_cons]; omega
    rw [replaceAllG_fuel_congr pat rep t.length _ _ hd (Nat.le_refl _)]
    rfl
  · simp only [if_neg h]
    rw [replaceAllG_fuel_congr pat rep t.length t t.length (Nat.le_refl _) (Nat.le_refl _)]
    rfl

theorem isPrefixL_iff (p : List Char) :
    ∀ l : List Char, isPrefixL p l = true ↔ ∃ t, p ++ t = l := by
  induction p with
  | nil =>
    intro l
    simp [isPrefixL]
  | cons a p ih =>
    intro l
    cases l with
    | nil =>
      simp [isPrefixL]
    | cons b t =>
      simp only [isPrefixL, Bool.and_eq_true, decide_eq_true_eq, ih t]
      constructor
      · rintro ⟨rfl, u, rfl⟩
        exact ⟨u, rfl⟩
      · rintro ⟨u, hu⟩
        rw [List.cons_append] at hu
        injection hu with h1 h2
        exact ⟨h1, u, h2⟩

theorem isPrefixL_append_self (p t : List Char) : isPrefixL p (p ++ t) = true :=
  (isPrefixL_iff p (p ++ t)).mpr ⟨t, rfl⟩

theorem isPrefixL_refl (p : List Char) : isPrefixL p p = true := by
  have := isPrefixL_append_self p []
  simpa using this

theorem isPrefixL_length_le (p l : List Char) (h : isPrefixL p l = true) :
    p.length ≤ l.length := by
  obtain ⟨t, rfl⟩ := (isPrefixL_iff p l).mp h
  simp

/-- Splitting a prefix of an append: a prefix of `x ++ y` is a prefix of
`x`, or extends the whole of `x` into `y`. -/
theorem prefix_append_cases (s x y : List Char) (h : isPrefixL s (x ++ y) = true) :
    isPrefixL s x = true ∨ ∃ s2, s = x ++ s2 ∧ isPrefixL s2 y = true := by
  induction x generalizing s with
  | nil =>
    right
    exact ⟨s, rfl, by simpa using h⟩
  | cons a x ih =>
    cases s with
    | nil => left; rfl
    | cons b s =>
      rw [List.cons_append] at h
      simp only [isPrefixL, Bool.and_eq_true, decide_eq_true_eq] at h
      obtain ⟨rfl, h2⟩ := h
      rcases ih s h2 with h3 | ⟨s2, rfl, h4⟩
      · left
        simp [isPrefixL, h3]
      · right
        exact ⟨s2, rfl, h4⟩

theorem containsSub_iff (l p : List Char) :
    containsSub l p = true ↔ ∃ x y, l = x ++ p ++ y := by
  induction l with
  | nil =>
    simp only [containsSub, isPrefixL_iff]
    constructor
    · rintro ⟨t, ht⟩
      have hp : p = [] := by
        cases p with
        | nil => rfl
        | cons a q => simp at ht
      subst hp
      exact ⟨[], [], by simpa using ht.symm⟩
    · rintro ⟨x, y, hxy⟩
      have : x = [] ∧ p ++ y = [] := by
        cases x with
        | nil => simpa using hxy.symm
        | cons a b => simp at hxy
      have hp : p = [] := by
        have := this.2
        cases p with
        | nil => rfl
        | cons a q => simp at this
      exact ⟨[], by simp [hp]⟩
  | cons c t ih =>
    simp only [containsSub, Bool.or_eq_true, ih, isPrefixL_iff]
    constructor
    · rintro (⟨u, hu⟩ | ⟨x, y, rfl⟩)
      · exact ⟨[], u, by simpa using hu.symm⟩
      · exact ⟨c :: x, y, by simp⟩
    · rintro ⟨x, y, hxy⟩
      cases x with
      | nil =>
        left
        exact ⟨y, by simpa using hxy.symm⟩
      | cons d x =>
        right
        rw [List.cons_append, List.cons_append] at hxy
        injection hxy with h1 h2
        exact ⟨x, y, h2⟩

theorem containsSub_trans (a b c : List Char)
    (hab : containsSub a b = true) (hbc : containsSub b c = true) :
    containsSub a c = true := by
  obtain ⟨x, y, rfl⟩ := (containsSub_iff a b).mp hab
  obtain ⟨u, v, rfl⟩ := (containsSub_iff _ c).mp hbc
  exact (containsSub_iff _ c).mpr ⟨x ++ u, v ++ y, by simp⟩

theorem containsSub_self (l : List Char) : containsSub l l = true :=
  (containsSub_iff l l).mpr ⟨[], [], by simp⟩

theorem containsSub_nil_pat (l : List Char) : containsSub l [] = true :=
  (containsSub_iff l []).mpr ⟨[], l, by simp⟩

theorem mem_of_containsSub (l p : List Char) (c : Char)
    (h : containsSub l p = true) (hc : c ∈ p) : c ∈ l := by
  obtain ⟨x, y, rfl⟩ := (containsSub_iff l p).mp h
  simp [hc]

theorem containsSub_length_le (l p : List Char) (h : containsSub l p = true) :
    p.length ≤ l.length := by
  obtain ⟨x, y, rfl⟩ := (containsSub_iff l p).mp h
  simp; omega

/-!  Semantic lemmas about `replaceAll`. -/

theorem replaceAll_of_not_contains (pat rep : List Char) :
    ∀ l : List Char, containsSub l pat = false → replaceAll l pat rep = l := by
  intro l
  induction l with
  | nil => intro _; rfl
  | cons c t ih =>
    intro h
    simp only [containsSub, Bool.or_eq_false_iff] at h
    rw [replaceAll_cons, if_neg, ih h.2]
    rintro ⟨-, hpre⟩
    rw [h.1] at hpre
    exact Bool.false_ne_true hpre

theorem replaceAll_self_eq (pat : List Char) :
    ∀ (n : Nat) (l : List Char), l.length ≤ n → replaceAll l pat pat = l := by
  intro n
  induction n with
  | zero =>
    intro l hn
    have hl : l = [] := List.eq_nil_of_length_eq_zero (Nat.le_zero.mp hn)
    subst hl; rfl
  | succ n ih =>
    intro l hn
    cases l with
    | nil => rfl
    | cons c t =>
      rw [replaceAll_cons]
      by_cases h : pat ≠ [] ∧ isPrefixL pat (c :: t) = true
      · rw [if_pos h]
        obtain ⟨u, hu⟩ := (isPrefixL_iff pat (c :: t)).mp h.2
        have hd : (c :: t).drop pat.length = u := by
          rw [← hu, List.drop_left]
        rw [hd, ih u ?_, hu]
        have := congrArg List.length hu
        simp only [List.length_append, List.length_cons] at this
        have hp : 0 < pat.length := List.length_pos.mpr h.1
        simp only [List.length_cons] at hn
        omega
      · rw [if_neg h, ih t ?_]
        simp only [List.length_cons] at hn
        omega

theorem replaceAll_length_le (pat rep : List Char) (hrep : rep.length ≤ pat.length) :
    ∀ (n : Nat) (l : List Char), l.length ≤ n →
      (replaceAll l pat rep).length ≤ l.length := by
  intro n
  induction n with
  | zero =>
    intro l hn
    have hl : l = [] := List.eq_nil_of_length_eq_zero (Nat.le_zero.mp hn)
    subst hl; simp [replaceAll_nil]
  | succ n ih =>
    intro l hn
    cases l with
    | nil => simp [replaceAll_nil]
    | cons c t =>
      rw [replaceAll_cons]
      by_cases h : pat ≠ [] ∧ isPrefixL pat (c :: t) = true
      · rw [if_pos h]
        have hp : 0 < pat.length := List.length_pos.mpr h.1
        have hple : pat.length ≤ (c :: t).length := isPrefixL_length_le _ _ h.2
        have hd : ((c :: t).drop pat.length).length ≤ n := by
          simp only [List.length_drop, List.length_cons] at *
          omega
        have hrec := ih _ hd
        simp only [List.length_drop, List.length_cons] at hrec
        simp only [List.length_append, List.length_cons] at *
        omega
      · rw [if_neg h]
        have ht : t.length ≤ n := by simp only [List.length_cons] at hn; omega
        have := ih t ht
        simp only [List.length_cons]
        omega

theorem replaceAll_length_lt (pat rep : List Char) (hrep : rep.length < pat.length) :
    ∀ (n : Nat) (l : List Char), l.length ≤ n → containsSub l pat = true →
      (replaceAll l pat rep).length < l.length := by
  intro n
  induction n with
  | zero =>
    intro l hn hc
    have hl : l = [] := List.eq_nil_of_length_eq_zero (Nat.le_zero.mp hn)
    subst hl
    have hpl := containsSub_length_le [] pat hc
    simp only [List.length_nil] at hpl
    omega
  | succ n ih =>
    intro l hn hc
    cases l with
    | nil =>
      have hpl := containsSub_length_le [] pat hc
      simp only [List.length_nil] at hpl
      omega
    | cons c t =>
      rw [replaceAll_cons]
      by_cases h : pat ≠ [] ∧ isPrefixL pat (c :: t) = true
      · rw [if_pos h]
        have hple : pat.length ≤ (c :: t).length := isPrefixL_length_le _ _ h.2
        have hd : ((c :: t).drop pat.length).length ≤ n := by
          simp only [List.length_drop, List.length_cons]
          have hp : 0 < pat.length := List.length_pos.mpr h.1
          simp only [List.length_cons] at hn
          omega
        have hle := replaceAll_length_le pat rep (Nat.le_of_lt hrep) n _ hd
        simp only [List.length_drop, List.length_cons] at hle
        simp only [List.length_cons] at hn hple
        simp only [List.length_append, List.length_cons]
        omega
      · rw [if_neg h]
        simp only [containsSub, Bool.or_eq_true] at hc
        have hc2 : containsSub t pat = true := by
          rcases hc with hc1 | hc2
          · by_cases hp : pat = []
            · subst hp; exact containsSub_nil_pat t
            · exact absurd ⟨hp, hc1⟩ h
          · exact hc2
        have ht : t.length ≤ n := by simp only [List.length_cons] at hn; omega
        have := ih t ht hc2
        simp only [List.length_cons]
        omega

theorem patOf_length (marker key : List Char) (w : Nat) :
    (patOf marker key w).length = marker.length + w + key.length := by
  simp [patOf, spaces]
  omega

theorem patOf_eq_key_iff (marker key : List Char) (w : Nat) :
    patOf marker key w = key ↔ (marker = [] ∧ w = 0) := by
  constructor
  · intro h
    have hlen := congrArg List.length h
    rw [patOf_length] at hlen
    constructor
    · have : marker.length = 0 := by omega
      exact List.eq_nil_of_length_eq_zero this
    · omega
  · rintro ⟨rfl, rfl⟩
    simp [patOf, spaces]

/-- The loop test of `uncomment_text_all`: the whole-document replacement
changes the document exactly when the built pattern occurs and differs from
the bare key. -/
theorem replaceAll_changes_iff (l marker key : List Char) (w : Nat) :
    replaceAll l (patOf marker key w) key ≠ l ↔
      (containsSub l (patOf marker key w) = true ∧ patOf marker key w ≠ key) := by
  constructor
  · intro hne
    constructor
    · by_contra hc
      have hc2 : containsSub l (patOf marker key w) = false := by
        cases h : containsSub l (patOf marker key w)
        · rfl
        · exact absurd h hc
      exact hne (replaceAll_of_not_contains _ key l hc2)
    · rintro heq
      rw [heq] at hne
      exact hne (replaceAll_self_eq key l.length l (Nat.le_refl _))
  · rintro ⟨hc, hne⟩
    have hlt : key.length < (patOf marker key w).length := by
      rw [patOf_length]
      by_contra hge
      have h0 : marker.length = 0 ∧ w = 0 := by omega
      have : marker = [] := List.eq_nil_of_length_eq_zero h0.1
      exact hne ((patOf_eq_key_iff marker key w).mpr ⟨this, h0.2⟩)
    intro heq
    have := replaceAll_length_lt _ key hlt l.length l (Nat.le_refl _) hc
    rw [heq] at this
    omega

/-!  Loop lemmas for `uncomment_text_all`. -/

theorem uncomment_text_all_go_some (orig marker key : List Char) :
    ∀ (fuel c : Nat) (r : List Char),
      uncomment_text_all_go orig marker key c fuel = some r →
      ∃ w, c ≤ w ∧
        (∀ v, c ≤ v → v < w → replaceAll orig (patOf marker key v) key = orig) ∧
        replaceAll orig (patOf marker key w) key ≠ orig ∧
        r = replaceAll orig (patOf marker key w) key := by
  intro fuel
  induction fuel with
  | zero => intro c r h; exact absurd h (by simp [uncomment_text_all_go])
  | succ fuel ih =>
    intro c r h
    simp only [uncomment_text_all_go] at h
    by_cases hc : replaceAll orig (patOf marker key c) key ≠ orig
    · rw [if_pos hc] at h
      refine ⟨c, Nat.le_refl _, ?_, hc, (Option.some.injEq _ _).mp h.symm⟩
      intro v hv1 hv2
      omega
    · rw [if_neg hc] at h
      obtain ⟨w, hw1, hw2, hw3, hw4⟩ := ih (c + 1) r h
      refine ⟨w, by omega, ?_, hw3, hw4⟩
      intro v hv1 hv2
      rcases Nat.eq_or_lt_of_le hv1 with heq | hlt
      · rw [← heq]
        by_contra hne
        exact hc hne
      · exact hw2 v hlt hv2

theorem uncomment_text_all_go_term (orig marker key : List Char) :
    ∀ (fuel c w : Nat), c ≤ w → w < c + fuel →
      (∀ v, c ≤ v → v < w → replaceAll orig (patOf marker key v) key = orig) →
      replaceAll orig (patOf marker key w) key ≠ orig →
      uncomment_text_all_go orig marker key c fuel =
        some (replaceAll orig (patOf marker key w) key) := by
  intro fuel
  induction fuel with
  | zero => intro c w h1 h2; omega
  | succ fuel ih =>
    intro c w h1 h2 hskip hchg
    simp only [uncomment_text_all_go]
    rcases Nat.eq_or_lt_of_le h1 with heq | hlt
    · subst heq
      rw [if_pos hchg]
    · have hc : replaceAll orig (patOf marker key c) key = orig :=
        hskip c (Nat.le_refl _) hlt
      rw [if_neg (by simpa using hc)]
      exact ih (c + 1) w (by omega) (by omega) (fun v hv1 hv2 => hskip v (by omega) hv2) hchg

theorem uncomment_text_all_go_none (orig marker key : List Char)
    (hall : ∀ v, replaceAll orig (patOf marker key v) key = orig) :
    ∀ (fuel c : Nat), uncomment_text_all_go orig marker key c fuel = none := by
  intro fuel
  induction fuel with
  | zero => intro c; rfl
  | succ fuel ih =>
    intro c
    simp only [uncomment_text_all_go]
    rw [if_neg (by simpa using hall c)]
    exact ih (c + 1)

/-- C2 (amended): `uncomment_text_all` terminates exactly when some
whitespace width `w` makes `marker + w spaces + pattern` occur in the input
with the built pattern different from the bare pattern (which fails only
for an empty marker at width 0); in that case it stops at the least such
width, returning the input with that pattern replaced everywhere, a changed
document.  When no width produces such a change-producing occurrence the
loop returns `none` under every fuel, i.e. the Rust loop never breaks. -/
theorem uncomment_text_all_termination (orig marker key : List Char) :
    ((∃ w, containsSub orig (patOf marker key w) = true ∧ patOf marker key w ≠ key) ↔
      ∃ fuel r, uncomment_text_all fuel orig marker key = some r) ∧
    (∀ w fuel, containsSub orig (patOf marker key w) = true → patOf marker key w ≠ key →
      (∀ v, v < w →
        ¬(containsSub orig (patOf marker key v) = true ∧ patOf marker key v ≠ key)) →
      w < fuel →
      uncomment_text_all fuel orig marker key =
        some (replaceAll orig (patOf marker key w) key) ∧
      replaceAll orig (patOf marker key w) key ≠ orig) := by
  constructor
  · constructor
    · rintro ⟨w, hw1, hw2⟩
      have hchg : replaceAll orig (patOf marker key w) key ≠ orig :=
        (replaceAll_changes_iff orig marker key w).mpr ⟨hw1, hw2⟩
      have hex : ∃ v, replaceAll orig (patOf marker key v) key ≠ orig := ⟨w, hchg⟩
      classical
      let w0 := Nat.find hex
      have hw0 : replaceAll orig (patOf marker key w0) key ≠ orig := Nat.find_spec hex
      refine ⟨w0 + 1, replaceAll orig (patOf marker key w0) key, ?_⟩
      apply uncomment_text_all_go_term orig marker key (w0 + 1) 0 w0 (Nat.zero_le _)
        (by omega) ?_ hw0
      intro v _ hv
      have := Nat.find_min hex hv
      by_contra hne
      exact this hne
    · rintro ⟨fuel, r, h⟩
      obtain ⟨w, _, _, hchg, _⟩ := uncomment_text_all_go_some orig marker key fuel 0 r h
      exact ⟨w, (replaceAll_changes_iff orig marker key w).mp hchg⟩
  · intro w fuel h1 h2 hmin hfuel
    have hchg : replaceAll orig (patOf marker key w) key ≠ orig :=
      (replaceAll_changes_iff orig marker key w).mpr ⟨h1, h2⟩
    refine ⟨?_, hchg⟩
    apply uncomment_text_all_go_term orig marker key fuel 0 w (Nat.zero_le _) (by omega)
      ?_ hchg
    intro v _ hv
    by_contra hne
    exact hmin v hv ((replaceAll_changes_iff orig marker key v).mp hne)

/-- Witness for C2: on `"#P"` with marker `"#"` and pattern `"P"`, width 0
occurs, the pattern differs from the key, and one loop iteration returns
the changed document. -/
theorem uncomment_text_all_termination_witness :
    uncomment_text_all 1 (strL ("#P")) (strL ("#")) (strL ("P")) =
      some (replaceAll (strL ("#P")) (patOf (strL ("#")) (strL ("P")) 0) (strL ("P"))) ∧
    replaceAll (strL ("#P")) (patOf (strL ("#")) (strL ("P")) 0) (strL ("P")) ≠ strL ("#P") :=
  (uncomment_text_all_termination (strL ("#P")) (strL ("#")) (strL ("P"))).2 0 1
    (by decide) (by decide) (by decide) (by decide)

/-- Counterexample for C2 as stated: with an empty marker and pattern `"x"`
on input `"x"`, width 0 makes `marker + 0 spaces + pattern` occur in the
input, yet the loop does not stop there (replacing `"x"` by `"x"` changes
nothing) and never returns under fuels 1 and 30 — contradicting
"terminates as soon as some whitespace width makes the pattern occur". -/
theorem uncomment_text_all_termination_cex :
    containsSub (strL ("x")) (patOf (strL ("")) (strL ("x")) 0) = true ∧
    uncomment_text_all 1 (strL ("x")) (strL ("")) (strL ("x")) = none ∧
    uncomment_text_all 30 (strL ("x")) (strL ("")) (strL ("x")) = none := by
  decide

/-- C3 (amended): All-mode uncomment is never idempotent: its loop breaks
only when the replacement changed the document, so whenever a second
application (after a first success) terminates at all, it returns a text
different from its input; markered occurrences of the pattern can survive
the first success, because replacement can create new ones. -/
theorem uncomment_text_all_second_application (orig marker key r : List Char)
    (fuel : Nat) (r2 : List Char) (fuel2 : Nat)
    (h1 : uncomment_text_all fuel orig marker key = some r)
    (h2 : uncomment_text_all fuel2 r marker key = some r2) :
    r2 ≠ r := by
  obtain ⟨w, _, _, hchg, hr2⟩ :=
    uncomment_text_all_go_some r marker key fuel2 0 r2 h2
  rw [hr2]
  exact hchg

/-- Witness for C3: the first application on `"##PP"` yields `"#PP"`; the
second application terminates and yields `"PP"`, different from `"#PP"`. -/
theorem uncomment_text_all_second_application_witness :
    strL ("PP") ≠ strL ("#PP") :=
  uncomment_text_all_second_application (strL ("##PP")) (strL ("#")) (strL ("P"))
    (strL ("#PP")) 1 (strL ("PP")) 1 (by decide) (by decide)

/-- Counterexample for C3 as stated: on `"##PP"` with marker `"#"` and
pattern `"P"`, the first application succeeds with `"#PP"`, which still
contains the markered pattern `"#P"` at the matched width 0, and the second
application changes the text again, to `"PP"`. -/
theorem uncomment_text_all_second_application_cex :
    uncomment_text_all 1 (strL ("##PP")) (strL ("#")) (strL ("P")) = some (strL ("#PP")) ∧
    containsSub (strL ("#PP")) (patOf (strL ("#")) (strL ("P")) 0) = true ∧
    uncomment_text_all 1 (strL ("#PP")) (strL ("#")) (strL ("P")) = some (strL ("PP")) ∧
    strL ("PP") ≠ strL ("#PP") := by
  decide

/-- C9 (amended): whenever `uncomment_text_all` terminates, its result is
the input with the left-to-right non-overlapping occurrences of
`marker + w spaces + pattern` replaced by the bare pattern, where `w` is the
least width at which that pattern occurs and differs from the bare pattern;
occurrences at larger widths are preserved only insofar as they do not
overlap a replaced occurrence. -/
theorem uncomment_text_all_result (orig marker key : List Char) (fuel : Nat)
    (r : List Char) (h : uncomment_text_all fuel orig marker key = some r) :
    ∃ w, containsSub orig (patOf marker key w) = true ∧ patOf marker key w ≠ key ∧
      (∀ v, v < w →
        ¬(containsSub orig (patOf marker key v) = true ∧ patOf marker key v ≠ key)) ∧
      r = replaceAll orig (patOf marker key w) key := by
  obtain ⟨w, _, hskip, hchg, hr⟩ :=
    uncomment_text_all_go_some orig marker key fuel 0 r h
  obtain ⟨hc, hne⟩ := (replaceAll_changes_iff orig marker key w).mp hchg
  refine ⟨w, hc, hne, ?_, hr⟩
  intro v hv hcv
  have := (replaceAll_changes_iff orig marker key v).mpr hcv
  exact this (hskip v (Nat.zero_le _) hv)

/-- Witness for C9: on `"#P"` with marker `"#"` and pattern `"P"` the loop
terminates and the characterization holds. -/
theorem uncomment_text_all_result_witness :
    ∃ w, containsSub (strL ("#P")) (patOf (strL ("#")) (strL ("P")) w) = true ∧
      patOf (strL ("#")) (strL ("P")) w ≠ strL ("P") ∧
      (∀ v, v < w →
        ¬(containsSub (strL ("#P")) (patOf (strL ("#")) (strL ("P")) v) = true ∧
          patOf (strL ("#")) (strL ("P")) v ≠ strL ("P"))) ∧
      strL ("P") = replaceAll (strL ("#P")) (patOf (strL ("#")) (strL ("P")) w) (strL ("P")) :=
  uncomment_text_all_result (strL ("#P")) (strL ("#")) (strL ("P")) 1 (strL ("P"))
    (by decide)

/-- Counterexample for C9 as stated: on `"# P#P#"` with marker `"#"` and
pattern `"P#"`, the smallest occurring width is 0 and the run returns
`"# PP#"`; the input's width-1 markered occurrence `"# P#"` is not left
unchanged in the output (replacing the overlapping width-0 occurrence
destroyed it). -/
theorem uncomment_text_all_result_cex :
    containsSub (strL ("# P#P#")) (patOf (strL ("#")) (strL ("P#")) 0) = true ∧
    uncomment_text_all 2 (strL ("# P#P#")) (strL ("#")) (strL ("P#")) =
      some (strL ("# PP#")) ∧
    containsSub (strL ("# P#P#")) (patOf (strL ("#")) (strL ("P#")) 1) = true ∧
    containsSub (strL ("# PP#")) (patOf (strL ("#")) (strL ("P#")) 1) = false := by
  decide

/-- C4 (amended): `parse_uncomment` rejects with a `BadHookCmd` parse error
every Uncomment command whose token count (including the leading key) is
below 3, equal to 4, or above 5, and every 5-token command whose middle
token — the 2nd argument, third-from-last, not second-to-last as the claim
says — is not the literal `marker`; it accepts exactly the 3-token form
(defaulting the marker to `#`) and the 5-token `marker` form (pattern,
literal `marker`, marker value, file). -/
theorem parse_uncomment_arity (parts : List (List Char)) (cmd : List Char)
    (hhead : parts.head? = some cmd)
    (hkey : cmd = UNCOMMENT ∨ cmd = UNCOMMENT_PRINT ∨ cmd = UNCOMMENT_ALL ∨
      cmd = UNCOMMENT_ALL_PRINT) :
    ((parts.length < 3 ∨ parts.length = 4 ∨ parts.length > 5) →
      ∃ msg, parse_uncomment parts = .error (.BadHookCmd msg)) ∧
    (∀ pat kw marker file, parts = [cmd, pat, kw, marker, file] → kw ≠ strL ("marker") →
      ∃ msg, parse_uncomment parts = .error (.BadHookCmd msg)) ∧
    (∀ pat file, parts = [cmd, pat, file] →
      ∃ uc, parse_uncomment parts = .ok uc ∧
        uc.marker = strL ("#") ∧ uc.pattern = pat ∧ uc.file = file) ∧
    (∀ pat marker file, parts = [cmd, pat, strL ("marker"), marker, file] →
      ∃ uc, parse_uncomment parts = .ok uc ∧
        uc.marker = marker ∧ uc.pattern = pat ∧ uc.file = file) := by
  have hmode : ∃ md, uncommentModeOf cmd = some md := by
    rcases hkey with rfl | rfl | rfl | rfl
    · exact ⟨.Once, by decide⟩
    · exact ⟨.Once, by decide⟩
    · exact ⟨.All, by decide⟩
    · exact ⟨.All, by decide⟩
  obtain ⟨md, hmd⟩ := hmode
  rcases parts with _ | ⟨a, _ | ⟨b, _ | ⟨c, _ | ⟨d, _ | ⟨e, _ | ⟨f, rest⟩⟩⟩⟩⟩⟩
  · simp at hhead
  all_goals (simp only [List.head?_cons, Option.some.injEq] at hhead; subst hhead)
  · -- 1 token
    refine ⟨fun _ => ?_, fun pat kw marker file h => by simp at h,
      fun pat file h => by simp at h, fun pat marker file h => by simp at h⟩
    exact ⟨_, rfl⟩
  · -- 2 tokens
    refine ⟨fun _ => ?_, fun pat kw marker file h => by simp at h,
      fun pat file h => by simp at h, fun pat marker file h => by simp at h⟩
    exact ⟨_, rfl⟩
  · -- 3 tokens: accepted
    refine ⟨fun hlen => absurd hlen (by simp), fun pat kw marker file h => by simp at h,
      ?_, fun pat marker file h => by simp at h⟩
    intro pat file h
    simp only [List.cons.injEq, and_true] at h
    obtain ⟨-, rfl, rfl⟩ := h
    have hres : parse_uncomment [a, b, c] =
        .ok ⟨strL ("#"), b, c, md,
          decide (a = UNCOMMENT_PRINT ∨ a = UNCOMMENT_ALL_PRINT)⟩ := by
      simp only [parse_uncomment, List.length_cons, List.length_nil]
      rw [if_neg (by omega), hmd]
    exact ⟨_, hres, rfl, rfl, rfl⟩
  · -- 4 tokens: rejected
    refine ⟨fun _ => ?_, fun pat kw marker file h => by simp at h,
      fun pat file h => by simp at h, fun pat marker file h => by simp at h⟩
    have hres : parse_uncomment [a, b, c, d] = .error (.BadHookCmd
        (UNCOMMENT ++ strL (": bad cmd parts: ") ++ strL (toString (4 : Nat)))) := by
      simp only [parse_uncomment, List.length_cons, List.length_nil]
      rw [if_neg (by omega), hmd]
    exact ⟨_, hres⟩
  · -- 5 tokens
    refine ⟨fun hlen => absurd hlen (by simp), ?_, fun pat file h => by simp at h, ?_⟩
    · intro pat kw marker file h hkw
      simp only [List.cons.injEq, and_true] at h
      obtain ⟨-, rfl, rfl, rfl, rfl⟩ := h
      have hres : parse_uncomment [a, b, c, d, e] = .error (.BadHookCmd
          (UNCOMMENT ++ strL (": unexpected argument ") ++ c ++
            strL (", expecting 2nd argument to be `marker`"))) := by
        simp only [parse_uncomment, List.length_cons, List.length_nil]
        rw [if_neg (by omega), hmd]
        simp only [if_neg hkw]
      exact ⟨_, hres⟩
    · intro pat marker file h
      simp only [List.cons.injEq, and_true] at h
      obtain ⟨-, rfl, rfl, rfl, rfl⟩ := h
      have hres : parse_uncomment [a, b, strL ("marker"), d, e] =
          .ok ⟨d, b, e, md,
            decide (a = UNCOMMENT_PRINT ∨ a = UNCOMMENT_ALL_PRINT)⟩ := by
        simp only [parse_uncomment, List.length_cons, List.length_nil]
        rw [if_neg (by omega), hmd]
        rfl
      exact ⟨_, hres, rfl, rfl, rfl⟩
  · -- 6 or more tokens: rejected
    refine ⟨fun _ => ?_, fun pat kw marker file h => by simp at h,
      fun pat file h => by simp at h, fun pat marker file h => by simp at h⟩
    have hres : parse_uncomment (a :: b :: c :: d :: e :: f :: rest) =
        .error (.BadHookCmd (UNCOMMENT ++ strL (": bad cmd parts: ") ++
          strL (toString (a :: b :: c :: d :: e :: f :: rest).length))) := by
      simp only [parse_uncomment, List.length_cons, List.length_nil]
      rw [if_neg (by simp), hmd]
    exact ⟨_, hres⟩

/-- Witness for C4: the 3-token command `@uncomment P f` is accepted with
the default `#` marker, and the 4-token command `@uncomment P x f` is
rejected. -/
theorem parse_uncomment_arity_witness :
    (∃ uc, parse_uncomment [strL ("@uncomment"), strL ("P"), strL ("f")] = .ok uc ∧
      uc.marker = strL ("#") ∧ uc.pattern = strL ("P") ∧ uc.file = strL ("f")) ∧
    (∃ msg, parse_uncomment [strL ("@uncomment"), strL ("P"), strL ("x"), strL ("f")] =
      .error (.BadHookCmd msg)) :=
  ⟨(parse_uncomment_arity [strL ("@uncomment"), strL ("P"), strL ("f")] (strL ("@uncomment"))
      (by decide) (Or.inl rfl)).2.2.1 (strL ("P")) (strL ("f")) rfl,
   (parse_uncomment_arity [strL ("@uncomment"), strL ("P"), strL ("x"), strL ("f")]
      (strL ("@uncomment")) (by decide) (Or.inl rfl)).1 (by decide)⟩

/-- Counterexample for C4 as stated: the 5-token command
`@uncomment P marker zz f`, whose second-to-last token `zz` is not the
literal `marker`, is accepted (the code checks the third-from-last token);
conversely `@uncomment P zz marker f`, whose second-to-last token is
`marker`, is rejected. -/
theorem parse_uncomment_arity_cex :
    parse_uncomment
        [strL ("@uncomment"), strL ("P"), strL ("marker"), strL ("zz"), strL ("f")] =
      .ok ⟨strL ("zz"), strL ("P"), strL ("f"), .Once, false⟩ ∧
    strL ("zz") ≠ strL ("marker") ∧
    (∃ msg, parse_uncomment
        [strL ("@uncomment"), strL ("P"), strL ("zz"), strL ("marker"), strL ("f")] =
      .error (.BadHookCmd msg)) := by
  refine ⟨by decide, by decide,
    ⟨UNCOMMENT ++ strL (": unexpected argument ") ++ strL ("zz") ++
      strL (", expecting 2nd argument to be `marker`"), by decide⟩⟩

/-- C7 (amended): every alias in each of the four boot-hook alias tables
resolves through `decide_boot_hooks` to that table's canonical preset; the
tables have 7, 7, 8 and 8 spellings; any string in none of the tables
yields the "no such boot_hook preset" error.  The spelling `root_lvm_root`
quoted by the spec is in no table and therefore errors. -/
theorem decide_boot_hooks_aliases :
    (∀ a ∈ ALIASES_ROOT_LVM, decide_boot_hooks a = .ok .Lvm) ∧
    (∀ a ∈ ALIASES_ROOT_LUKS, decide_boot_hooks a = .ok .Luks) ∧
    (∀ a ∈ ALIASES_ROOT_LVM_ON_LUKS, decide_boot_hooks a = .ok .LvmOnLuks) ∧
    (∀ a ∈ ALIASES_ROOT_LUKS_ON_LVM, decide_boot_hooks a = .ok .LuksOnLvm) ∧
    ALIASES_ROOT_LVM.length = 7 ∧ ALIASES_ROOT_LUKS.length = 7 ∧
    ALIASES_ROOT_LVM_ON_LUKS.length = 8 ∧ ALIASES_ROOT_LUKS_ON_LVM.length = 8 ∧
    (∀ s, s ∉ ALIASES_ROOT_LVM → s ∉ ALIASES_ROOT_LUKS →
      s ∉ ALIASES_ROOT_LVM_ON_LUKS → s ∉ ALIASES_ROOT_LUKS_ON_LVM →
      decide_boot_hooks s =
        .error (.BadHookCmd (MKINITCPIO_KEY ++ strL (": no such boot_hook preset: ") ++ s))) := by
  refine ⟨by decide, by decide, by decide, by decide, by decide, by decide, by decide,
    by decide, ?_⟩
  intro s h1 h2 h3 h4
  simp only [decide_boot_hooks, if_neg h1, if_neg h2, if_neg h3, if_neg h4]

/-- Witness for C7: `lvm` resolves to the Lvm preset and the unlisted
string `zzz` errors. -/
theorem decide_boot_hooks_aliases_witness :
    decide_boot_hooks (strL ("lvm")) = .ok .Lvm ∧
    decide_boot_hooks (strL ("zzz")) =
      .error (.BadHookCmd (MKINITCPIO_KEY ++ strL (": no such boot_hook preset: ") ++
        strL ("zzz"))) :=
  ⟨decide_boot_hooks_aliases.1 (strL ("lvm")) (by decide),
   decide_boot_hooks_aliases.2.2.2.2.2.2.2.2 (strL ("zzz"))
     (by decide) (by decide) (by decide) (by decide)⟩

/-- Counterexample for C7 as stated: the spec's listed LVM spelling
`root_lvm_root` does not resolve to the Lvm preset; it is in no alias table
and yields the "no such boot_hook preset" error. -/
theorem decide_boot_hooks_aliases_cex :
    decide_boot_hooks (strL ("root_lvm_root")) ≠ .ok .Lvm ∧
    decide_boot_hooks (strL ("root_lvm_root")) =
      .error (.BadHookCmd (MKINITCPIO_KEY ++ strL (": no such boot_hook preset: ") ++
        strL ("root_lvm_root"))) := by
  decide

/-- C8 (amended): the Uncomment hook resolves its configured target file
path relative to `root_location` for the `ManifestPostInstall` and `Cli`
callers (the two behave identically), and uses the configured path verbatim
for the `ManifestChroot` caller, whose runs are independent of
`root_location` altogether. -/
theorem uncomment_target_resolution :
    (∀ (root file : List Char),
      uncommentTarget .ManifestPostInstall root file = root ++ '/' :: file ∧
      uncommentTarget .Cli root file = root ++ '/' :: file ∧
      uncommentTarget .ManifestChroot root file = file) ∧
    (∀ (fuel : Nat) (uc : Uncomment) (root : List Char)
        (fs : List Char → Option (List Char)),
      uncommentRun fuel uc .ManifestPostInstall root fs =
        uncommentRun fuel uc .Cli root fs) ∧
    (∀ (fuel : Nat) (uc : Uncomment) (root root2 : List Char)
        (fs : List Char → Option (List Char)),
      uncommentRun fuel uc .ManifestChroot root fs =
        uncommentRun fuel uc .ManifestChroot root2 fs) :=
  ⟨fun _ _ => ⟨rfl, rfl, rfl⟩, fun _ _ _ _ => rfl, fun _ _ _ _ _ => rfl⟩

/-- Counterexample for C8 as stated: the manifest-driven `ManifestChroot`
caller does not get `root_location` prepended — the configured path is used
verbatim. -/
theorem uncomment_target_resolution_cex :
    uncommentTarget .ManifestChroot (strL ("/mnt")) (strL ("etc/ssh/sshd_config")) =
      strL ("etc/ssh/sshd_config") ∧
    uncommentTarget .ManifestChroot (strL ("/mnt")) (strL ("etc/ssh/sshd_config")) ≠
      strL ("/mnt/etc/ssh/sshd_config") := by
  decide

/-- C5 (amended): when a hook with `should_chroot() = true` is validated
with `/` as the mountpoint, the guard fails with the internal-invariant
`AliRsBug` error naming the hook for both manifest-driven callers (whether
or not the hook aborts on a missing mountpoint); for the CLI caller it
warns (with the mountpoint-flag hint) and validation continues when
`abort_if_no_mount()` is false, and fails with the "is to be run with a
mountpoint" error when `abort_if_no_mount()` is true — that error is thus
reachable only for the CLI caller. -/
theorem handle_no_mountpoint_spec (m : HookMeta) (caller : Caller)
    (hchroot : m.should_chroot = true) :
    ((caller = .ManifestChroot ∨ caller = .ManifestPostInstall) →
      handle_no_mountpoint m caller (strL ("/")) =
        (.error (.AliRsBug (strL ("Got / as mountpoint for hook ") ++ hookKey m)),
         [warnFmt m.base_key (strL ("got / as mountpoint"))])) ∧
    (m.abort_if_no_mount = false →
      (handle_no_mountpoint m .Cli (strL ("/"))).1 = .ok () ∧
      (handle_no_mountpoint m .Cli (strL ("/"))).2.take 2 =
        [warnFmt m.base_key (strL ("got / as mountpoint")),
         warnFmt m.base_key
           (strL ("hint: use --mountpoint flag to specify non-/ mountpoint"))]) ∧
    (m.abort_if_no_mount = true →
      handle_no_mountpoint m .Cli (strL ("/")) =
        (.error (.BadHookCmd
          (strL ("hook ") ++ hookKey m ++ strL (" is to be run with a mountpoint"))),
         [warnFmt m.base_key (strL ("got / as mountpoint")),
          warnFmt m.base_key
            (strL ("hint: use --mountpoint flag to specify non-/ mountpoint"))])) := by
  refine ⟨?_, ?_, ?_⟩
  · rintro (rfl | rfl) <;> simp [handle_no_mountpoint]
  · intro habort
    have hmain : handle_no_mountpoint m .Cli (strL ("/")) =
        preferredCheck m .Cli
          [warnFmt m.base_key (strL ("got / as mountpoint")),
           warnFmt m.base_key
             (strL ("hint: use --mountpoint flag to specify non-/ mountpoint"))] := by
      simp [handle_no_mountpoint, habort]
    rw [hmain]
    constructor
    · simp only [preferredCheck]
      by_cases hpref : Caller.Cli ∈ m.preferred_callers
      · rw [if_pos hpref]
      · rw [if_neg hpref]
    · simp only [preferredCheck]
      by_cases hpref : Caller.Cli ∈ m.preferred_callers
      · rw [if_pos hpref]
        rfl
      · rw [if_neg hpref]
        rfl
  · intro habort
    simp [handle_no_mountpoint, habort]

/-- Witness for C5: a concrete chroot-requiring hook with
`abort_if_no_mount = true`, validated from the `ManifestChroot` caller with
`/` as mountpoint, fails with the internal-invariant error. -/
theorem handle_no_mountpoint_spec_witness :
    handle_no_mountpoint
        ⟨strL ("@quicknet"), .Normal, true, [], true⟩ .ManifestChroot (strL ("/")) =
      (.error (.AliRsBug (strL ("Got / as mountpoint for hook ") ++
        hookKey ⟨strL ("@quicknet"), .Normal, true, [], true⟩)),
       [warnFmt (strL ("@quicknet")) (strL ("got / as mountpoint"))]) :=
  (handle_no_mountpoint_spec ⟨strL ("@quicknet"), .Normal, true, [], true⟩
    .ManifestChroot rfl).1 (Or.inl rfl)

/-- Counterexample for C5 as stated: for a hook with
`abort_if_no_mount() = true` and the manifest-driven `ManifestChroot`
caller, the guard does not fail with the "must be run with a mountpoint"
error — the internal-invariant `AliRsBug` error pre-empts it. -/
theorem handle_no_mountpoint_spec_cex :
    (handle_no_mountpoint
        ⟨strL ("@quicknet"), .Normal, true, [], true⟩ .ManifestChroot (strL ("/"))).1 =
      .error (.AliRsBug (strL ("Got / as mountpoint for hook @quicknet"))) ∧
    (handle_no_mountpoint
        ⟨strL ("@quicknet"), .Normal, true, [], true⟩ .ManifestChroot (strL ("/"))).1 ≠
      .error (.BadHookCmd (strL ("hook @quicknet is to be run with a mountpoint"))) := by
  decide

/-- C10: every Uncomment hook variant reports `should_chroot() = false` and
`abort_if_no_mount() = false`, so `parse_validate` never runs the
caller/mountpoint guard on an uncomment command: the outcome is identical
for every caller and every `root_location` (in particular a manifest-driven
caller with `/`), no warning is ever emitted, and the result is exactly the
parser's (so the guard's mountpoint errors can never occur). -/
theorem uncomment_never_guarded :
    ((uncommentMeta UNCOMMENT).should_chroot = false ∧
     (uncommentMeta UNCOMMENT).abort_if_no_mount = false ∧
     (uncommentMeta UNCOMMENT_PRINT).should_chroot = false ∧
     (uncommentMeta UNCOMMENT_PRINT).abort_if_no_mount = false ∧
     (uncommentMeta UNCOMMENT_ALL).should_chroot = false ∧
     (uncommentMeta UNCOMMENT_ALL).abort_if_no_mount = false ∧
     (uncommentMeta UNCOMMENT_ALL_PRINT).should_chroot = false ∧
     (uncommentMeta UNCOMMENT_ALL_PRINT).abort_if_no_mount = false) ∧
    (∀ (k : List Char) (parts : List (List Char)) (caller caller2 : Caller)
        (root root2 : List Char),
      parse_validate (uncommentMeta k) uncommentTryParse parts caller root =
        parse_validate (uncommentMeta k) uncommentTryParse parts caller2 root2) ∧
    (∀ (k : List Char) (parts : List (List Char)) (caller : Caller) (root : List Char),
      (parse_validate (uncommentMeta k) uncommentTryParse parts caller root).2 = []) ∧
    (∀ (k : List Char) (parts : List (List Char)) (caller : Caller) (root : List Char),
      (parse_validate (uncommentMeta k) uncommentTryParse parts caller root).1 =
        if parts = [] then .error (.BadManifest (strL ("empty hook")))
        else uncommentTryParse parts) := by
  refine ⟨⟨rfl, rfl, rfl, rfl, rfl, rfl, rfl, rfl⟩, ?_, ?_, ?_⟩
  · intro k parts caller caller2 root root2
    by_cases hp : parts = []
    · simp [parse_validate, hp]
    · simp only [parse_validate, if_neg hp]
      cases uncommentTryParse parts <;> rfl
  · intro k parts caller root
    by_cases hp : parts = []
    · simp [parse_validate, hp]
    · simp only [parse_validate, if_neg hp]
      cases uncommentTryParse parts <;> rfl
  · intro k parts caller root
    by_cases hp : parts = []
    · simp [parse_validate, hp]
    · simp only [parse_validate, if_neg hp]
      cases h : uncommentTryParse parts <;> rfl

/-- C6 (amended): a Mkinitcpio command that parses to a normal-mode (no
`-print`) configuration always fails: with the `NotImplemented`
"write files" error whenever the mountpoint guard passes (CLI caller, or a
non-`/` root), and with the guard's internal-invariant error for a
manifest-driven caller with `/` as root.  In either case the run only
produces an error, never a write. -/
theorem mkinitcpio_normal_mode (parts : List (List Char)) (caller : Caller)
    (root : List Char) (m : Mkinitcpio)
    (hp : mkParse parts = .ok m) (hpo : m.print_only = false) :
    (∃ e, (mkinitcpio parts caller root).1 = .error e) ∧
    ((caller = .Cli ∨ root ≠ strL ("/")) →
      (mkinitcpio parts caller root).1 =
        .error (.NotImplemented (MKINITCPIO_KEY ++ strL (": write files")))) ∧
    (caller ≠ .Cli → root = strL ("/") →
      (mkinitcpio parts caller root).1 =
        .error (.AliRsBug (strL ("Got / as mountpoint for hook ") ++ MKINITCPIO_KEY))) := by
  have hpo2 : (match m.boot_hook with
      | some bh => { m with hooks := some (split_whitespace_to_strings (preset bh)) }
      | none => m).print_only = false := by
    cases m.boot_hook <;> simpa using hpo
  simp only [mkinitcpio, hp]
  constructor
  · cases hbh : m.boot_hook <;>
      · simp only [hbh] at hpo2 ⊢
        simp only [hpo2, Bool.false_eq_true, if_neg, not_false_eq_true]
        rcases hcr : warn_if_no_mountpoint MKINITCPIO_KEY caller root with ⟨res, ws⟩
        cases res with
        | error e => exact ⟨e, rfl⟩
        | ok u => exact ⟨_, rfl⟩
  · constructor
    · intro hcal
      have hguard : (warn_if_no_mountpoint MKINITCPIO_KEY caller root).1 = .ok () := by
        rcases hcal with rfl | hroot
        · simp only [warn_if_no_mountpoint]
          by_cases hr : root = strL ("/") <;> simp [hr]
        · simp [warn_if_no_mountpoint, hroot]
      cases hbh : m.boot_hook <;>
        · simp only [hbh] at hpo2 ⊢
          simp only [hpo2, Bool.false_eq_true, if_neg, not_false_eq_true]
          rcases hcr : warn_if_no_mountpoint MKINITCPIO_KEY caller root with ⟨res, ws⟩
          rw [hcr] at hguard
          simp only at hguard
          rw [hguard]
    · intro hcal hroot
      have hguard : (warn_if_no_mountpoint MKINITCPIO_KEY caller root).1 =
          .error (.AliRsBug (strL ("Got / as mountpoint for hook ") ++ MKINITCPIO_KEY)) := by
        subst hroot
        cases caller with
        | Cli => exact absurd rfl hcal
        | ManifestChroot => simp [warn_if_no_mountpoint]
        | ManifestPostInstall => simp [warn_if_no_mountpoint]
      cases hbh : m.boot_hook <;>
        · simp only [hbh] at hpo2 ⊢
          simp only [hpo2, Bool.false_eq_true, if_neg, not_false_eq_true]
          rcases hcr : warn_if_no_mountpoint MKINITCPIO_KEY caller root with ⟨res, ws⟩
          rw [hcr] at hguard
          simp only at hguard
          rw [hguard]

/-- Witness for C6: the normal-mode command `@mkinitcpio hooks=foo` from
the CLI caller with a real mountpoint fails with the `NotImplemented`
error. -/
theorem mkinitcpio_normal_mode_witness :
    (mkinitcpio [strL ("@mkinitcpio"), strL ("hooks=foo")] .Cli (strL ("/mnt"))).1 =
      .error (.NotImplemented (MKINITCPIO_KEY ++ strL (": write files"))) :=
  (mkinitcpio_normal_mode [strL ("@mkinitcpio"), strL ("hooks=foo")] .Cli (strL ("/mnt"))
    { boot_hook := none, binaries := none, hooks := some [strL ("foo")],
      print_only := false }
    (by decide) rfl).2.1 (Or.inl rfl)

/-- Counterexample for C6 as stated: the same normal-mode command from the
manifest-driven `ManifestChroot` caller with `/` as root fails with the
guard's internal-invariant error, not the "not implemented: write files"
error. -/
theorem mkinitcpio_normal_mode_cex :
    (mkinitcpio [strL ("@mkinitcpio"), strL ("hooks=foo")] .ManifestChroot
        (strL ("/"))).1 =
      .error (.AliRsBug (strL ("Got / as mountpoint for hook @mkinitcpio"))) ∧
    (mkinitcpio [strL ("@mkinitcpio"), strL ("hooks=foo")] .ManifestChroot
        (strL ("/"))).1 ≠
      .error (.NotImplemented (strL ("@mkinitcpio: write files"))) := by
  decide

/-!  Lemmas about `splitNl`, `joinNl` and `linesOf`, for the Once-mode
claim. -/

theorem splitNl_ne_nil (l : List Char) : splitNl l ≠ [] := by
  cases l with
  | nil => simp [splitNl]
  | cons c t =>
    simp only [splitNl]
    by_cases h : c = NL
    · simp [h]
    · simp only [if_neg h]
      cases splitNl t <;> simp

theorem joinNl_cons (s : List Char) (ls : List (List Char)) (h : ls ≠ []) :
    joinNl (s :: ls) = s ++ NL :: joinNl ls := by
  cases ls with
  | nil => exact absurd rfl h
  | cons t rest => rfl

theorem joinNl_splitNl : ∀ l : List Char, joinNl (splitNl l) = l := by
  intro l
  induction l with
  | nil => rfl
  | cons c t ih =>
    simp only [splitNl]
    by_cases h : c = NL
    · rw [if_pos h, joinNl_cons _ _ (splitNl_ne_nil t), ih, h]
      rfl
    · rw [if_neg h]
      cases hs : splitNl t with
      | nil => exact absurd hs (splitNl_ne_nil t)
      | cons s rest =>
        rw [hs] at ih
        cases rest with
        | nil =>
          show c :: s = c :: t
          have : joinNl [s] = t := ih
          simp only [joinNl] at this
          rw [this]
        | cons r rest2 =>
          have ih2 : s ++ NL :: joinNl (r :: rest2) = t := ih
          show (c :: s) ++ NL :: joinNl (r :: rest2) = c :: t
          rw [List.cons_append, ih2]

theorem nl_not_mem_of_mem_splitNl :
    ∀ (l seg : List Char), seg ∈ splitNl l → NL ∉ seg := by
  intro l
  induction l with
  | nil =>
    intro seg hseg
    simp [splitNl] at hseg
    simp [hseg]
  | cons c t ih =>
    intro seg hseg
    simp only [splitNl] at hseg
    by_cases h : c = NL
    · rw [if_pos h] at hseg
      rcases List.mem_cons.mp hseg with rfl | hmem
      · simp
      · exact ih seg hmem
    · rw [if_neg h] at hseg
      cases hs : splitNl t with
      | nil => exact absurd hs (splitNl_ne_nil t)
      | cons s rest =>
        rw [hs] at hseg
        rcases List.mem_cons.mp hseg with rfl | hmem
        · intro hmem2
          rcases List.mem_cons.mp hmem2 with heq | hmem3
          · exact h heq.symm
          · exact ih s (by rw [hs]; exact List.mem_cons_self s rest) hmem3
        · exact ih seg (by rw [hs]; exact List.mem_cons_of_mem s hmem)

theorem chars_subset_of_mem_splitNl :
    ∀ (l seg : List Char), seg ∈ splitNl l → ∀ c ∈ seg, c ∈ l := by
  intro l
  induction l with
  | nil =>
    intro seg hseg
    simp [splitNl] at hseg
    simp [hseg]
  | cons a t ih =>
    intro seg hseg c hc
    simp only [splitNl] at hseg
    by_cases h : a = NL
    · rw [if_pos h] at hseg
      rcases List.mem_cons.mp hseg with rfl | hmem
      · simp at hc
      · exact List.mem_cons_of_mem a (ih seg hmem c hc)
    · rw [if_neg h] at hseg
      cases hs : splitNl t with
      | nil => exact absurd hs (splitNl_ne_nil t)
      | cons s rest =>
        rw [hs] at hseg
        rcases List.mem_cons.mp hseg with rfl | hmem
        · rcases List.mem_cons.mp hc with rfl | hmem2
          · exact List.mem_cons_self c t
          · exact List.mem_cons_of_mem a
              (ih s (by rw [hs]; exact List.mem_cons_self s rest) c hmem2)
        · exact List.mem_cons_of_mem a
            (ih seg (by rw [hs]; exact List.mem_cons_of_mem s hmem) c hc)

theorem getLast?_mem_char : ∀ (s : List Char) (c : Char), s.getLast? = some c → c ∈ s := by
  intro s
  induction s with
  | nil => intro c h; simp at h
  | cons a t ih =>
    intro c h
    cases t with
    | nil =>
      simp only [List.getLast?_singleton, Option.some.injEq] at h
      simp [h]
    | cons b u =>
      rw [List.getLast?_cons_cons] at h
      exact List.mem_cons_of_mem a (ih c h)

theorem stripCR_eq_self (s : List Char) (h : CR ∉ s) : stripCR s = s := by
  simp only [stripCR]
  by_cases hl : s.getLast? = some CR
  · exact absurd (getLast?_mem_char s CR hl) h
  · rw [if_neg hl]

theorem map_stripCR_eq_self (xs : List (List Char)) (h : ∀ s ∈ xs, CR ∉ s) :
    xs.map stripCR = xs := by
  induction xs with
  | nil => rfl
  | cons s rest ih =>
    simp only [List.map_cons]
    rw [stripCR_eq_self s (h s (List.mem_cons_self s rest)),
      ih (fun t ht => h t (List.mem_cons_of_mem s ht))]

/-- With no carriage return in the document, `linesOf` is `splitNl` up to
dropping a trailing empty segment. -/
theorem linesOf_no_cr (l : List Char) (h : CR ∉ l) :
    linesOf l =
      (if (splitNl l).getLast? = some [] then (splitNl l).dropLast else splitNl l) := by
  have hmap : (splitNl l).dropLast.map stripCR = (splitNl l).dropLast := by
    apply map_stripCR_eq_self
    intro s hs hcr
    exact h (chars_subset_of_mem_splitNl l s
      ((List.dropLast_sublist (splitNl l)).mem hs) CR hcr)
  have hne : splitNl l ≠ [] := splitNl_ne_nil l
  cases hlast : (splitNl l).getLast? with
  | none =>
    exfalso
    cases hsegs : splitNl l with
    | nil => exact hne hsegs
    | cons s rest =>
      rw [hsegs] at hlast
      have hx := List.getLast?_eq_getLast (s :: rest) (by simp)
      rw [hlast] at hx
      exact Option.noConfusion hx
  | some last =>
    cases last with
    | nil =>
      simp only [linesOf, hlast]
      simpa using hmap
    | cons c t =>
      simp only [linesOf, hlast]
      rw [if_neg (by simp), hmap]
      have hgl : (splitNl l).getLast hne = c :: t := by
        have hx := List.getLast?_eq_getLast (splitNl l) hne
        rw [hlast] at hx
        exact ((Option.some.injEq _ _).mp hx).symm
      rw [← hgl]
      exact List.dropLast_append_getLast hne

/-!  Splicing lemmas for `replaceFirst` over a newline-joined document. -/

theorem replaceFirst_of_isPrefixL (l line rep : List Char) (h : isPrefixL line l = true) :
    replaceFirst l line rep = rep ++ l.drop line.length := by
  cases l with
  | nil =>
    simp only [replaceFirst, if_pos h, List.drop_nil]
  | cons c t =>
    simp only [replaceFirst, if_pos h]

theorem drop_length_append (p t : List Char) : (p ++ t).drop p.length = t := by
  induction p with
  | nil => rfl
  | cons a p ih => simpa using ih

theorem replaceFirst_append_left (line tail rep : List Char) :
    replaceFirst (line ++ tail) line rep = rep ++ tail := by
  rw [replaceFirst_of_isPrefixL (line ++ tail) line rep (isPrefixL_append_self line tail),
    drop_length_append]

/-- A newline-free, non-empty pattern that does not occur in the first line
of a document is first sought past that line's newline. -/
theorem replaceFirst_skip_line (s : List Char) (hnl : NL ∉ s) (hne : s ≠ []) :
    ∀ (l rest rep : List Char), containsSub l s = false →
      replaceFirst (l ++ NL :: rest) s rep = l ++ NL :: replaceFirst rest s rep := by
  intro l
  induction l with
  | nil =>
    intro rest rep _
    cases s with
    | nil => exact absurd rfl hne
    | cons a s2 =>
      have hcond : ¬(isPrefixL (a :: s2) (NL :: rest) = true) := by
        simp only [isPrefixL, Bool.and_eq_true, decide_eq_true_eq]
        rintro ⟨h, -⟩
        apply hnl
        rw [← h]
        exact List.mem_cons_self a s2
      show replaceFirst (NL :: rest) (a :: s2) rep = NL :: replaceFirst rest (a :: s2) rep
      simp only [replaceFirst]
      rw [if_neg hcond]
  | cons c t ih =>
    intro rest rep hnc
    simp only [containsSub, Bool.or_eq_false_iff] at hnc
    have hpre : ¬(isPrefixL s (c :: t ++ NL :: rest) = true) := by
      intro hx
      rcases prefix_append_cases s (c :: t) (NL :: rest) hx with h1 | ⟨s2, hs2, h2⟩
      · rw [hnc.1] at h1
        exact Bool.noConfusion h1
      · cases s2 with
        | nil =>
          rw [List.append_nil] at hs2
          have hself := hnc.1
          rw [hs2, isPrefixL_refl] at hself
          exact Bool.noConfusion hself
        | cons d s3 =>
          simp only [isPrefixL, Bool.and_eq_true, decide_eq_true_eq] at h2
          apply hnl
          rw [hs2, h2.1]
          simp
    show replaceFirst (c :: (t ++ NL :: rest)) s rep =
      c :: t ++ NL :: replaceFirst rest s rep
    simp only [replaceFirst]
    rw [if_neg (by simpa using hpre), ih rest rep hnc.2]
    rfl

/-- Replacing the first occurrence of a full line inside a joined document:
when no earlier segment contains the line, the replacement happens exactly
at that segment. -/
theorem replaceFirst_joinNl (line rep : List Char) (hnl : NL ∉ line) :
    ∀ (pre post : List (List Char)),
      (∀ l ∈ pre, containsSub l line = false) →
      replaceFirst (joinNl (pre ++ line :: post)) line rep =
        joinNl (pre ++ rep :: post) := by
  intro pre
  induction pre with
  | nil =>
    intro post _
    cases post with
    | nil =>
      show replaceFirst (joinNl [line]) line rep = joinNl [rep]
      show replaceFirst line line rep = rep
      have := replaceFirst_append_left line [] rep
      simpa using this
    | cons p ps =>
      rw [List.nil_append, List.nil_append,
        joinNl_cons line (p :: ps) (by simp), joinNl_cons rep (p :: ps) (by simp),
        replaceFirst_append_left]
  | cons l pre2 ih =>
    intro post hpre
    have hline_ne : line ≠ [] := by
      intro h
      have hx := hpre l (List.mem_cons_self l pre2)
      rw [h, containsSub_nil_pat] at hx
      exact Bool.noConfusion hx
    rw [List.cons_append, List.cons_append,
      joinNl_cons l (pre2 ++ line :: post) (by simp),
      joinNl_cons l (pre2 ++ rep :: post) (by simp),
      replaceFirst_skip_line line hnl hline_ne l _ rep
        (hpre l (List.mem_cons_self l pre2)),
      ih post (fun x hx => hpre x (List.mem_cons_of_mem l hx))]

/-!  Lemmas about the line/width search of `uncomment_text_once`. -/

theorem lineWidth_eq_none_iff (marker key line : List Char) :
    lineWidth marker key line = none ↔
      ∀ i, i < 5 → containsSub line (patOf marker key i) = false := by
  simp only [lineWidth, List.find?_eq_none, List.mem_range]
  constructor
  · intro h i hi
    have := h i hi
    cases hx : containsSub line (patOf marker key i)
    · rfl
    · exact absurd hx this
  · intro h x hx
    rw [h x hx]
    exact Bool.noConfusion

theorem findOnce_eq_none_iff (marker key : List Char) :
    ∀ ls, findOnce marker key ls = none ↔
      ∀ line ∈ ls, lineWidth marker key line = none := by
  intro ls
  induction ls with
  | nil => simp [findOnce]
  | cons l rest ih =>
    have hdef : findOnce marker key (l :: rest) =
        (match lineWidth marker key l with
         | some i => some (l, i)
         | none => findOnce marker key rest) := rfl
    rw [hdef]
    cases hw : lineWidth marker key l with
    | some j =>
      constructor
      · intro h
        exact absurd h (by simp)
      · intro h
        have := h l (List.mem_cons_self l rest)
        rw [hw] at this
        exact absurd this (by simp)
    | none =>
      constructor
      · intro h line hline
        rcases List.mem_cons.mp hline with rfl | h2
        · exact hw
        · exact (ih.mp h) line h2
      · intro h
        exact ih.mpr (fun x hx => h x (List.mem_cons_of_mem l hx))

theorem findOnce_append (marker key : List Char) (ls : List (List Char)) :
    ∀ pre, (∀ l ∈ pre, lineWidth marker key l = none) →
      findOnce marker key (pre ++ ls) = findOnce marker key ls := by
  intro pre
  induction pre with
  | nil => intro _; rfl
  | cons l pre2 ih =>
    intro h
    show (match lineWidth marker key l with
      | some i => some (l, i)
      | none => findOnce marker key (pre2 ++ ls)) = findOnce marker key ls
    rw [h l (List.mem_cons_self l pre2)]
    exact ih (fun x hx => h x (List.mem_cons_of_mem l hx))

theorem lineWidth_eq_some (marker key line : List Char) (i : Nat) (hi : i < 5)
    (hc : containsSub line (patOf marker key i) = true)
    (hmin : ∀ j, j < i → containsSub line (patOf marker key j) = false) :
    lineWidth marker key line = some i := by
  have hr : List.range 5 = [0, 1, 2, 3, 4] := rfl
  simp only [lineWidth, hr]
  interval_cases i
  · simp [List.find?, hc]
  · simp [List.find?, hmin 0 (by omega), hc]
  · simp [List.find?, hmin 0 (by omega), hmin 1 (by omega), hc]
  · simp [List.find?, hmin 0 (by omega), hmin 1 (by omega), hmin 2 (by omega), hc]
  · simp [List.find?, hmin 0 (by omega), hmin 1 (by omega), hmin 2 (by omega),
      hmin 3 (by omega), hc]

theorem findOnce_some_facts (marker key : List Char) :
    ∀ (ls : List (List Char)) (line : List Char) (i : Nat),
      findOnce marker key ls = some (line, i) →
      line ∈ ls ∧ containsSub line (patOf marker key i) = true ∧ i < 5 := by
  intro ls
  induction ls with
  | nil => intro line i h; exact absurd h (by simp [findOnce])
  | cons l rest ih =>
    intro line i h
    have h2 : (match lineWidth marker key l with
        | some i => some (l, i)
        | none => findOnce marker key rest) = some (line, i) := h
    cases hw : lineWidth marker key l with
    | some j =>
      rw [hw] at h2
      simp only [Option.some.injEq, Prod.mk.injEq] at h2
      obtain ⟨rfl, rfl⟩ := h2
      have hw2 : (List.range 5).find? (fun i => containsSub l (patOf marker key i)) =
          some j := hw
      refine ⟨List.mem_cons_self _ _, ?_, ?_⟩
      · have := List.find?_some hw2
        simpa using this
      · have := List.mem_of_find?_eq_some hw2
        simpa using this
    | none =>
      rw [hw] at h2
      obtain ⟨hmem, hrest⟩ := ih line i h2
      exact ⟨List.mem_cons_of_mem l hmem, hrest⟩

/-- C1 (amended): for a document containing no carriage return,
`uncomment_text_once` fails with the "no such comment pattern" `HookError`
exactly when no line contains `marker + i spaces + pattern` for any width
`i ∈ 0..4`; and when the lines decompose as `pre ++ line :: post` with no
line of `pre` matching any width, `line` matching first at width `i`, the
result is the document with exactly that line's first occurrence of the
width-`i` pattern replaced by the bare pattern and every other line
byte-identical (the document's segments other than `line` are unchanged).
Without the carriage-return restriction the replacement can land on an
earlier line (see the counterexample). -/
theorem uncomment_text_once_spec (orig marker key : List Char) (hcr : CR ∉ orig) :
    (uncomment_text_once orig marker key =
        .error (.HookError (noSuchPatternMsg marker key)) ↔
      ∀ line ∈ linesOf orig, ∀ i, i < 5 →
        containsSub line (patOf marker key i) = false) ∧
    (∀ (pre : List (List Char)) (line : List Char) (post : List (List Char)) (i : Nat),
      linesOf orig = pre ++ line :: post →
      (∀ l ∈ pre, ∀ j, j < 5 → containsSub l (patOf marker key j) = false) →
      i < 5 → containsSub line (patOf marker key i) = true →
      (∀ j, j < i → containsSub line (patOf marker key j) = false) →
      ∃ post2, splitNl orig = pre ++ line :: post2 ∧
        uncomment_text_once orig marker key =
          .ok (joinNl (pre ++ replaceFirst line (patOf marker key i) key :: post2))) := by
  constructor
  · cases hf : findOnce marker key (linesOf orig) with
    | some li =>
      obtain ⟨line, i⟩ := li
      have hresult : uncomment_text_once orig marker key =
          .ok (replaceFirst orig line (replaceFirst line (patOf marker key i) key)) := by
        simp only [uncomment_text_once, hf]
      constructor
      · intro h
        rw [hresult] at h
        exact absurd h (by simp)
      · intro hall
        obtain ⟨hmem, hcont, hi⟩ := findOnce_some_facts marker key _ line i hf
        rw [hall line hmem i hi] at hcont
        exact absurd hcont (by simp)
    | none =>
      have hresult : uncomment_text_once orig marker key =
          .error (.HookError (noSuchPatternMsg marker key)) := by
        simp only [uncomment_text_once, hf]
      constructor
      · intro _ line hline i hi
        have := (findOnce_eq_none_iff marker key _).mp hf line hline
        exact ((lineWidth_eq_none_iff marker key line).mp this) i hi
      · intro _
        exact hresult
  · intro pre line post i hlines hpre hi hcont hmin
    have hlw : lineWidth marker key line = some i :=
      lineWidth_eq_some marker key line i hi hcont hmin
    have hprenone : ∀ l ∈ pre, lineWidth marker key l = none := fun l hl =>
      (lineWidth_eq_none_iff marker key l).mpr (hpre l hl)
    have hfind : findOnce marker key (linesOf orig) = some (line, i) := by
      rw [hlines, findOnce_append marker key (line :: post) pre hprenone]
      show (match lineWidth marker key line with
        | some i => some (line, i)
        | none => findOnce marker key post) = some (line, i)
      rw [hlw]
    have hsegs : ∃ post2, splitNl orig = pre ++ line :: post2 := by
      have hlor := linesOf_no_cr orig hcr
      by_cases hlast : (splitNl orig).getLast? = some []
      · rw [if_pos hlast] at hlor
        refine ⟨post ++ [[]], ?_⟩
        have hne : splitNl orig ≠ [] := splitNl_ne_nil orig
        have hgl : (splitNl orig).getLast hne = [] := by
          have hx := List.getLast?_eq_getLast (splitNl orig) hne
          rw [hlast] at hx
          exact ((Option.some.injEq _ _).mp hx).symm
        calc splitNl orig
            = (splitNl orig).dropLast ++ [(splitNl orig).getLast hne] :=
              (List.dropLast_append_getLast hne).symm
          _ = (pre ++ line :: post) ++ [[]] := by rw [← hlor, hlines, hgl]
          _ = pre ++ line :: (post ++ [[]]) := by simp
      · rw [if_neg hlast] at hlor
        exact ⟨post, by rw [← hlor, hlines]⟩
    obtain ⟨post2, hsp⟩ := hsegs
    refine ⟨post2, hsp, ?_⟩
    have hresult : uncomment_text_once orig marker key =
        .ok (replaceFirst orig line (replaceFirst line (patOf marker key i) key)) := by
      simp only [uncomment_text_once, hfind]
    rw [hresult]
    congr 1
    have hnl : NL ∉ line := by
      apply nl_not_mem_of_mem_splitNl orig line
      rw [hsp]
      simp
    have hprecont : ∀ l ∈ pre, containsSub l line = false := by
      intro l hl
      cases hx : containsSub l line
      · rfl
      · have hy := containsSub_trans l line _ hx hcont
        rw [hpre l hl i hi] at hy
        exact absurd hy (by simp)
    calc replaceFirst orig line (replaceFirst line (patOf marker key i) key)
        = replaceFirst (joinNl (pre ++ line :: post2)) line
            (replaceFirst line (patOf marker key i) key) := by
          rw [← joinNl_splitNl orig, hsp]
      _ = joinNl (pre ++ replaceFirst line (patOf marker key i) key :: post2) :=
          replaceFirst_joinNl line _ hnl pre post2 hprecont

/-- Witness for C1: on `"ab\n#P x"` with marker `"#"` and pattern `"P"`,
the second line is the first match at width 0 and exactly it is
rewritten. -/
theorem uncomment_text_once_spec_witness :
    ∃ post2, splitNl (strL ("ab\n#P x")) = [strL ("ab")] ++ strL ("#P x") :: post2 ∧
      uncomment_text_once (strL ("ab\n#P x")) (strL ("#")) (strL ("P")) =
        .ok (joinNl ([strL ("ab")] ++
          replaceFirst (strL ("#P x")) (patOf (strL ("#")) (strL ("P")) 0)
            (strL ("P")) :: post2)) :=
  (uncomment_text_once_spec (strL ("ab\n#P x")) (strL ("#")) (strL ("P"))
    (by decide)).2 [strL ("ab")] (strL ("#P x")) [] 0
    (by decide) (by decide) (by decide) (by decide) (by decide)

/-- Counterexample for C1 as stated: with a carriage return inside the
pattern, on document `"x#K\r\n#K\r"` with marker `"#"` and pattern
`"K\r"`, the first (and only) matching line is the second line `"#K\r"`
(the first line is `"x#K"`, its `\r` being part of the `\r\n`
terminator), yet the code rewrites the first line: the matched line's text
`"#K\r"` occurs earlier in the document, inside the first line's segment
`"x#K\r"`, so `original.replacen(line, ..., 1)` splices there.  The result
is `"xK\r\n#K\r"`, whose first line `"xK"` differs from the input's
first line while the matching second line is untouched. -/
theorem uncomment_text_once_spec_cex :
    linesOf (strL ("x#K\r\n#K\r")) = [strL ("x#K"), strL ("#K\r")] ∧
    findOnce (strL ("#")) (strL ("K\r")) (linesOf (strL ("x#K\r\n#K\r"))) =
      some (strL ("#K\r"), 0) ∧
    uncomment_text_once (strL ("x#K\r\n#K\r")) (strL ("#")) (strL ("K\r")) =
      .ok (strL ("xK\r\n#K\r")) ∧
    linesOf (strL ("xK\r\n#K\r")) = [strL ("xK"), strL ("#K\r")] ∧
    strL ("xK") ≠ strL ("x#K") := by
  decide

end Ayi
